import Mathlib

/-!
# Verification of the page-loader resource-resolution and rewriting pipeline

Shallow embedding of the page-loader module (`src/index.js`, the full version
with typed errors, debug logging and the optional Listr progress runner — the
version whose helpers are cited as `makeResourceFilename`, `isLocalResource`,
`mkdirOrThrow`, `fetchOrThrow`, `collectResources` and the default export).

The platform `URL` class is modelled by a small executable WHATWG-style parser
covering the fragment the program reads: `protocol` (scheme), `host`
(including a non-default port) and `pathname`.  In the WHATWG parser the query
and the fragment never contribute to those three components (every state
terminates host/port/path parsing at `?` and `#`), so the model strips them up
front and tracks only scheme, host and pathname.  Restrictions of the model,
none of which the program's inputs exercise: no userinfo (`user@host`), no
IPv6 host literals (any `[` in a host is simply invalid, as an unbracketed
`[` is in the real parser too), `\` is not treated as a path separator, no
percent-encoding normalisation, and only `http`/`https` are special schemes
(every other scheme yields an opaque-path URL with an empty host).
-/

namespace PageLoader

/-- The fragment of a parsed WHATWG `URL` object that the program reads.
`isOpaque` records an opaque-path URL (e.g. `data:`): such a URL has an empty
host and cannot serve as a base for relative resolution. -/
structure URLRec where
  scheme : String
  host : String
  pathname : String
  isOpaque : Bool
deriving Repr, DecidableEq

/-- Characters allowed after the first character of a URL scheme. -/
def isSchemeChar (c : Char) : Bool :=
  c.isAlphanum || c == '+' || c == '-' || c == '.'

/-- Characters the model accepts inside a host name.  The WHATWG host parser
rejects (among others) `[`, `]`, `@`, `%`, spaces and control characters; the
model conservatively accepts only letters, digits, `.`, `-` and `_`. -/
def isHostChar (c : Char) : Bool :=
  c.isAlphanum || c == '.' || c == '-' || c == '_'

/-- Scan the remainder of a scheme: stop successfully at `:`, fail on any
non-scheme character or at end of input. -/
def splitSchemeAux (acc : List Char) : List Char → Option (List Char × List Char)
  | [] => none
  | c :: cs =>
    if c = ':' then some (acc.reverse, cs)
    else if isSchemeChar c then splitSchemeAux (c :: acc) cs
    else none

/-- Split `scheme:rest`; the first character must be an ASCII letter. -/
def splitScheme : List Char → Option (List Char × List Char)
  | [] => none
  | c :: cs => if c.isAlpha then splitSchemeAux [c] cs else none

/-- Split a character list on `/`. -/
def splitOnSlash : List Char → List (List Char) :=
  go []
where
  go (acc : List Char) : List Char → List (List Char)
    | [] => [acc.reverse]
    | c :: rest => if c = '/' then acc.reverse :: go [] rest else go (c :: acc) rest

/-- WHATWG path-state segment processing: `.` segments are dropped, `..`
segments pop the previous segment, and a trailing dot segment keeps the
trailing slash by appending an empty segment. -/
def normSegsAux (stack : List (List Char)) : List (List Char) → List (List Char)
  | [] => stack
  | seg :: rest =>
    let stack' :=
      if seg = ['.'] then stack
      else if seg = ['.', '.'] then stack.dropLast
      else stack ++ [seg]
    match rest with
    | [] => if seg = ['.'] ∨ seg = ['.', '.'] then stack' ++ [[]] else stack'
    | _ => normSegsAux stack' rest

/-- Normalise a path: split into segments, remove dot segments, rejoin; the
result always begins with `/`. -/
def normPath (p : List Char) : List Char :=
  let body := match p with
    | '/' :: rest => rest
    | other => other
  '/' :: List.intercalate ['/'] (normSegsAux [] (splitOnSlash body))

/-- Numeric value of a decimal digit string. -/
def portVal (l : List Char) : Nat :=
  l.foldl (fun a c => a * 10 + (c.toNat - 48)) 0

/-- Parse `host[:port]`.  The host must be non-empty and consist of host
characters; it is lowercased.  The port must be numeric and at most 65535;
an empty or scheme-default port is dropped, any other port is serialised
back in decimal. -/
def parseHostPort (scheme : String) (hp : List Char) : Option (List Char) :=
  let host := hp.takeWhile (fun c => c ≠ ':')
  let rest := hp.drop host.length
  if host = [] then none
  else if !(host.all isHostChar) then none
  else
    let host := host.map Char.toLower
    match rest with
    | [] => some host
    | _ :: port =>
      if port.all Char.isDigit then
        if port = [] then some host
        else
          let n := portVal port
          if n > 65535 then none
          else if (scheme = "http" ∧ n = 80) ∨ (scheme = "https" ∧ n = 443) then some host
          else some (host ++ ':' :: (Nat.repr n).data)
      else none

/-- Parse `host[:port]` followed by an optional `/path`. -/
def parseAuthority (scheme : String) (r : List Char) : Option URLRec :=
  let hostPart := r.takeWhile (fun c => c ≠ '/')
  let after := r.drop hostPart.length
  match parseHostPort scheme hostPart with
  | none => none
  | some h => some ⟨scheme, String.mk h, String.mk (normPath after), false⟩

/-- The special schemes the model gives an authority to. -/
def specialSchemes : List String := ["http", "https"]

/-- A non-special absolute URL: opaque path, empty host. -/
def parseOpaque (scheme : String) (rest : List Char) : URLRec :=
  ⟨scheme, "", String.mk rest, true⟩

/-- Does the input begin with `//`? -/
def startsWithSlashSlash : List Char → Bool
  | '/' :: '/' :: _ => true
  | _ => false

/-- Resolve a scheme-less or same-scheme-relative reference against a base. -/
def relativeResolve (base : URLRec) (r : List Char) : Option URLRec :=
  if base.isOpaque then none
  else match r with
  | [] => some ⟨base.scheme, base.host, base.pathname, base.isOpaque⟩
  | '/' :: _ => some ⟨base.scheme, base.host, String.mk (normPath r), false⟩
  | _ =>
    some ⟨base.scheme, base.host,
      String.mk (normPath (((base.pathname.data.reverse.dropWhile
        (fun c => c ≠ '/')).reverse) ++ r)), false⟩

/-- Resolve a (query/fragment-stripped) reference against a base URL, as
`new URL(ref, base)` does: a special-scheme reference equal to the base's
scheme and not followed by `//` is treated as relative; any other reference
with a scheme is parsed as absolute; `//…` is protocol-relative; everything
else is path-relative. -/
def resolveCore (base : URLRec) (r : List Char) : Option URLRec :=
  match splitScheme r with
  | some (schRaw, rest) =>
    let sch := String.mk (schRaw.map Char.toLower)
    if sch ∈ specialSchemes then
      if sch = base.scheme ∧ ¬ startsWithSlashSlash rest then relativeResolve base rest
      else parseAuthority sch (rest.dropWhile (fun c => c = '/'))
    else some (parseOpaque sch rest)
  | none =>
    if startsWithSlashSlash r then parseAuthority base.scheme (r.drop 2)
    else relativeResolve base r

/-- Parse an absolute URL (no base), as `new URL(s)` does. -/
def parseCore (r : List Char) : Option URLRec :=
  match splitScheme r with
  | some (schRaw, rest) =>
    let sch := String.mk (schRaw.map Char.toLower)
    if sch ∈ specialSchemes then parseAuthority sch (rest.dropWhile (fun c => c = '/'))
    else some (parseOpaque sch rest)
  | none => none

/-- Drop the query and the fragment: they never contribute to scheme, host or
pathname in the WHATWG parser. -/
def stripQF (s : String) : List Char :=
  s.data.takeWhile (fun c => c ≠ '?' ∧ c ≠ '#')

/-- Model of `new URL(s)` restricted to the components the program reads;
`none` models a thrown `TypeError: Invalid URL`. -/
def parseURL (s : String) : Option URLRec :=
  parseCore (stripQF s)

/-- Model of `new URL(ref, base)` (base already parsed); `none` models a
thrown `TypeError: Invalid URL`. -/
def resolveRef (base : URLRec) (ref : String) : Option URLRec :=
  resolveCore base (stripQF ref)

/-- Model of `URL#toString` for the URLs this program builds (no query,
fragment or userinfo). -/
def urlToString (u : URLRec) : String :=
  if u.isOpaque then u.scheme ++ ":" ++ u.pathname
  else u.scheme ++ "://" ++ u.host ++ u.pathname

/-! ## Naming helpers (`sanitize`, `makeHtmlFilenameFromUrl`,
`makeFilesDirnameFromUrl`, `makeResourceFilename`) -/

/-- `const sanitize = (value) => value.replace(/[^a-zA-Z0-9]/g, '-');` -/
def sanitize (value : String) : String :=
  String.mk (value.data.map (fun c => if c.isAlphanum then c else '-'))

/-- `makeHtmlFilenameFromUrl`: sanitize `host + pathname` of the page URL and
append `.html`.  `none` models the `TypeError` thrown by `new URL` on an
invalid page URL. -/
def makeHtmlFilenameFromUrl (pageUrl : String) : Option String :=
  (parseURL pageUrl).map (fun u => sanitize (u.host ++ u.pathname) ++ ".html")

/-- Model of `.replace(/\.html$/, '_files')`: replace a trailing `.html` by
`_files`, leave any other string unchanged. -/
def replaceHtmlSuffix (s : String) : String :=
  let r := s.data.reverse
  if r.take 5 = ['l', 'm', 't', 'h', '.'] then String.mk ((r.drop 5).reverse ++ "_files".data)
  else s

/-- `makeFilesDirnameFromUrl`: the page filename with `.html` replaced by
`_files`. -/
def makeFilesDirnameFromUrl (pageUrl : String) : Option String :=
  (makeHtmlFilenameFromUrl pageUrl).map replaceHtmlSuffix

/-- Model of Node's `path.extname`: the substring of the basename from its
last `.`, or `""` when the basename has no dot or only a leading dot. -/
def extname (p : String) : String :=
  let rb := p.data.reverse.takeWhile (fun c => c ≠ '/')
  let pre := rb.takeWhile (fun c => c ≠ '.')
  if pre.length = rb.length ∨ pre.length + 1 = rb.length then ""
  else "." ++ String.mk pre.reverse

/-- `makeResourceFilename`: resolve the reference against the page URL, take
the resolved pathname, split off its extension (defaulting to `.html`),
sanitize `host + path-without-extension` and reattach the extension. -/
def makeResourceFilename (pageUrl resourceUrlOrRef : String) : Option String :=
  match parseURL pageUrl with
  | none => none
  | some pu =>
    match resolveRef pu resourceUrlOrRef with
    | none => none
    | some resolved =>
      let cleanPathname := resolved.pathname
      let extFromPath := extname cleanPathname
      let ext := if extFromPath = "" then ".html" else extFromPath
      let withoutExt :=
        if extFromPath = "" then cleanPathname
        else cleanPathname.dropRight extFromPath.length
      let raw := pu.host ++ withoutExt
      some (sanitize raw ++ ext)

/-- `isLocalResource`: false for an empty reference; resolve the reference
against the page URL; false for a `data:` URL; otherwise local iff the
resolved host equals the page host.  `none` models an uncaught `TypeError`
from `new URL`. -/
def isLocalResource (pageUrl ref : String) : Option Bool :=
  if ref = "" then some false
  else
    match parseURL pageUrl with
    | none => none
    | some pu =>
      match resolveRef pu ref with
      | none => none
      | some resolved =>
        if resolved.scheme = "data" then some false
        else some (resolved.host == pu.host)

/-- `toAbsoluteResourceUrl`: `new URL(ref, pageUrl).toString()`. -/
def toAbsoluteResourceUrl (pageUrl ref : String) : Option String :=
  match parseURL pageUrl with
  | none => none
  | some pu =>
    match resolveRef pu ref with
    | none => none
    | some r => some (urlToString r)

/-! ## Document model

The parsed page (`cheerio.load`) is modelled as a list of elements carrying
exactly the attributes the program reads: `img[src]`, `script[src]`,
`link[href]` with its `rel`, and inert content. -/

inductive Elem where
  | img (src : Option String)
  | script (src : Option String)
  | link (href : Option String) (rel : Option String)
  | text (content : String)
deriving Repr, DecidableEq

abbrev Doc := List Elem

/-- Model of `String.toLowerCase` (core `String.toLower` is defined by
well-founded recursion and does not reduce in the kernel). -/
def lowerStr (s : String) : String := String.mk (s.data.map Char.toLower)

/-- One entry of `collectResources`: the owning element (by document index,
modelling the cheerio node handle), the attribute name and the raw reference
string. -/
structure Resource where
  idx : Nat
  attr : String
  ref : String
deriving Repr, DecidableEq

/-- The `$('img[src]').each` pass: every `img` that has a `src` attribute is
tested with `isLocalResource`; a throw from the classifier (modelled `none`)
aborts collection. -/
def collectImgs (pageUrl : String) : Nat → Doc → Option (List Resource)
  | _, [] => some []
  | i, Elem.img (some s) :: rest =>
    match isLocalResource pageUrl s with
    | none => none
    | some b =>
      match collectImgs pageUrl (i + 1) rest with
      | none => none
      | some tail => some (if b then ⟨i, "src", s⟩ :: tail else tail)
  | i, _ :: rest => collectImgs pageUrl (i + 1) rest

/-- The `$('script[src]').each` pass. -/
def collectScripts (pageUrl : String) : Nat → Doc → Option (List Resource)
  | _, [] => some []
  | i, Elem.script (some s) :: rest =>
    match isLocalResource pageUrl s with
    | none => none
    | some b =>
      match collectScripts pageUrl (i + 1) rest with
      | none => none
      | some tail => some (if b then ⟨i, "src", s⟩ :: tail else tail)
  | i, _ :: rest => collectScripts pageUrl (i + 1) rest

/-- The `$('link[href]').each` pass: the `rel` attribute (defaulting to `""`)
is lowercased and must be `stylesheet` or `canonical`; only then is the
classifier consulted (JS `&&` short-circuit). -/
def collectLinks (pageUrl : String) : Nat → Doc → Option (List Resource)
  | _, [] => some []
  | i, Elem.link (some href) rel :: rest =>
    let relLower := lowerStr (rel.getD "")
    if relLower = "stylesheet" ∨ relLower = "canonical" then
      match isLocalResource pageUrl href with
      | none => none
      | some b =>
        match collectLinks pageUrl (i + 1) rest with
        | none => none
        | some tail => some (if b then ⟨i, "href", href⟩ :: tail else tail)
    else collectLinks pageUrl (i + 1) rest
  | i, _ :: rest => collectLinks pageUrl (i + 1) rest

/-- `collectResources`: images, then scripts, then links, in document order
within each pass. -/
def collectResources (pageUrl : String) (doc : Doc) : Option (List Resource) :=
  match collectImgs pageUrl 0 doc with
  | none => none
  | some imgs =>
    match collectScripts pageUrl 0 doc with
    | none => none
    | some scripts =>
      match collectLinks pageUrl 0 doc with
      | none => none
      | some links => some (imgs ++ scripts ++ links)

/-- Model of `node.attr(attr, v)` on one element: writing the attribute slot
the model represents, leaving the element unchanged for any other name. -/
def setAttr (e : Elem) (attr v : String) : Elem :=
  match e with
  | Elem.img src => if attr = "src" then Elem.img (some v) else Elem.img src
  | Elem.script src => if attr = "src" then Elem.script (some v) else Elem.script src
  | Elem.link href rel => if attr = "href" then Elem.link (some v) rel else Elem.link href rel
  | Elem.text c => Elem.text c

/-- Model of `node.attr(attr)`: reading the attribute slot the model
represents. -/
def getAttr (e : Elem) (attr : String) : Option String :=
  match e with
  | Elem.img src => if attr = "src" then src else none
  | Elem.script src => if attr = "src" then src else none
  | Elem.link href _ => if attr = "href" then href else none
  | Elem.text _ => none

/-- In-place document mutation through a node handle, modelled by index. -/
def modifyAt : Doc → Nat → (Elem → Elem) → Doc
  | [], _, _ => []
  | e :: rest, 0, f => f e :: rest
  | e :: rest, n + 1, f => e :: modifyAt rest n f

/-- Is this element one of the tracked selector/relation matches carrying the
reference `s`?  (`img[src]`, `script[src]`, or `link[href]` whose lowercased
`rel` is `stylesheet` or `canonical`.) -/
def carriesRef (s : String) : Elem → Bool
  | Elem.img (some src) => src == s
  | Elem.script (some src) => src == s
  | Elem.link (some href) rel =>
    decide (lowerStr (rel.getD "") = "stylesheet" ∨ lowerStr (rel.getD "") = "canonical") &&
      href == s
  | _ => false

/-- `img[src]` elements carrying `s`. -/
def imgCarries (s : String) : Elem → Bool
  | Elem.img (some src) => src == s
  | _ => false

/-- `script[src]` elements carrying `s`. -/
def scriptCarries (s : String) : Elem → Bool
  | Elem.script (some src) => src == s
  | _ => false

/-- Tracked `link[href]` elements carrying `s`. -/
def linkCarries (s : String) : Elem → Bool
  | Elem.link (some href) rel =>
    decide (lowerStr (rel.getD "") = "stylesheet" ∨ lowerStr (rel.getD "") = "canonical") &&
      href == s
  | _ => false

/-! ## Typed errors, fetch/persist wrappers and the pipeline driver -/

/-- The typed failure categories (`HttpError`, `NetworkError`,
`FileSystemError` from `errors.js`), plus the uncaught `TypeError` a failed
`new URL` raises past the pipeline. -/
inductive PLError where
  | httpError (resourceUrl : String) (status : Nat)
  | networkError (resourceUrl : String) (code : String)
  | fileSystemError (filepath : String)
  | urlTypeError
deriving Repr, DecidableEq

/-- Outcome of one `axios.get` call: fulfilled with a status and a body,
rejected with a response attached (`err.response.status`), or rejected with
no response at all (DNS failure, refused connection, timeout — `code` is the
transport error code). -/
inductive FetchOutcome where
  | fulfilled (status : Nat) (body : String)
  | rejectedWithResponse (status : Nat)
  | rejectedNoResponse (code : String)
deriving Repr, DecidableEq

/-- `fetchOrThrow`: a fulfilled response with status ≠ 200 throws `HttpError`;
a rejection that carries a response with a truthy status throws `HttpError`
with that status; any other rejection throws `NetworkError` carrying the
transport cause. -/
def fetchOrThrow (url : String) (o : FetchOutcome) : Except PLError (Nat × String) :=
  match o with
  | FetchOutcome.fulfilled status body =>
    if status ≠ 200 then Except.error (PLError.httpError url status)
    else Except.ok (status, body)
  | FetchOutcome.rejectedWithResponse status =>
    if status ≠ 0 then Except.error (PLError.httpError url status)
    else Except.error (PLError.networkError url "")
  | FetchOutcome.rejectedNoResponse code =>
    Except.error (PLError.networkError url code)

/-- The external world of one invocation: the page fetch outcome, each
resource URL's fetch outcome, whether `fs.mkdir` of the resources directory
succeeds, and which paths `fs.writeFile` can write. -/
structure World where
  pageOutcome : FetchOutcome
  resourceOutcome : String → FetchOutcome
  mkdirOk : Bool
  writeOk : String → Bool

/-- Observable filesystem/network effects of one run. -/
inductive Ev where
  | fetched (url : String)
  | madeDir (dir : String)
  | wrote (path : String) (content : String)
deriving Repr, DecidableEq

/-- `writeFileOrThrow`: a failing write throws `FileSystemError` carrying the
path; a successful write is recorded as an event. -/
def writeFileOrThrow (w : World) (filepath data : String) : List Ev × Except PLError Unit :=
  if w.writeOk filepath then ([Ev.wrote filepath data], Except.ok ())
  else ([], Except.error (PLError.fileSystemError filepath))

/-- `mkdirOrThrow`: `fs.mkdir(dirpath)` (non-recursive), throwing
`FileSystemError` carrying the directory path when it fails (e.g. the parent
output directory does not exist). -/
def mkdirOrThrow (w : World) (dirpath : String) : List Ev × Except PLError Unit :=
  if w.mkdirOk then ([Ev.madeDir dirpath], Except.ok ())
  else ([], Except.error (PLError.fileSystemError dirpath))

/-- `downloadAndSave`: binary fetch of the resource, then write to its
destination path. -/
def downloadAndSave (w : World) (resourceUrl destinationPath : String) :
    List Ev × Except PLError Unit :=
  match fetchOrThrow resourceUrl (w.resourceOutcome resourceUrl) with
  | Except.error e => ([Ev.fetched resourceUrl], Except.error e)
  | Except.ok (_, body) =>
    let (evs, res) := writeFileOrThrow w destinationPath body
    (Ev.fetched resourceUrl :: evs, res)

/-- A ResourceJob: display title (the absolute URL, also what `run` fetches),
destination path, and the local relative path written into the document. -/
structure ResourceJob where
  title : String
  dest : String
  newAttrValue : String
deriving Repr, DecidableEq

/-- Model of `path.join`/`path.posix.join` for separator-free components. -/
def pathJoin (a b : String) : String := a ++ "/" ++ b

/-- The `resources.map(({ node, attr, ref }) => …)` body: per reference,
resolve the absolute URL, compute the filename and destination, rewrite the
element's attribute in the document to `filesDirname/filename` (forward
slash), and emit the job.  All rewrites happen here, before any download
settles. -/
def buildJobs (pu : URLRec) (pageUrl filesDirname filesDirPath : String) :
    Doc → List Resource → Option (Doc × List ResourceJob)
  | doc, [] => some (doc, [])
  | doc, r :: rest =>
    match resolveRef pu r.ref with
    | none => none
    | some resolved =>
      match makeResourceFilename pageUrl r.ref with
      | none => none
      | some filename =>
        let absUrl := urlToString resolved
        let resourcePath := pathJoin filesDirPath filename
        let newVal := pathJoin filesDirname filename
        let doc' := modifyAt doc r.idx (fun e => setAttr e r.attr newVal)
        match buildJobs pu pageUrl filesDirname filesDirPath doc' rest with
        | none => none
        | some (docF, jobs) => some (docF, ⟨absUrl, resourcePath, newVal⟩ :: jobs)

/-- `job.run()`. -/
def runJob (w : World) (j : ResourceJob) : List Ev × Except PLError Unit :=
  downloadAndSave w j.title j.dest

/-- The settled outcome of the concurrent batch: `Promise.all` (and the
concurrent Listr runner) rejects iff some job rejects.  List order stands in
for settlement order of the first rejection; already-started jobs are not
cancelled, so every job's effects occur. -/
def firstError : List (Except PLError Unit) → Except PLError Unit
  | [] => Except.ok ()
  | Except.error e :: _ => Except.error e
  | Except.ok _ :: rest => firstError rest

/-- `downloadResources`: run all jobs as a concurrent batch (with or without
the progress renderer — both degrade to the same join semantics). -/
def downloadResources (w : World) (jobs : List ResourceJob) :
    List Ev × Except PLError Unit :=
  let results := jobs.map (runJob w)
  ((results.map Prod.fst).flatten, firstError (results.map Prod.snd))

/-- Result of one `pageLoader` invocation: the effect trace, the settled
promise (`Except`), and the final state of the in-memory document (none when
the page was never parsed). -/
structure LoadOutcome where
  events : List Ev
  result : Except PLError String
  finalDoc : Option Doc

/-- The default export: compute names, fetch the page, collect local
resources; with no resources write the fetched body unchanged; otherwise
create the resources directory, rewrite all references and build the jobs,
run them concurrently, and only after every job succeeds serialize the
mutated document and write it.  `parseHtml`/`serializeHtml` model
`cheerio.load` and `$.html()`; `outputDir` is taken absolute, so
`path.resolve(htmlPath)` is `htmlPath` itself. -/
def pageLoader (parseHtml : String → Doc) (serializeHtml : Doc → String)
    (w : World) (pageUrl outputDir : String) : LoadOutcome :=
  match makeHtmlFilenameFromUrl pageUrl, makeFilesDirnameFromUrl pageUrl, parseURL pageUrl with
  | some htmlFilename, some filesDirname, some pu =>
    let htmlPath := pathJoin outputDir htmlFilename
    let filesDirPath := pathJoin outputDir filesDirname
    let absoluteHtmlPath := htmlPath
    (match fetchOrThrow pageUrl w.pageOutcome with
    | Except.error e => ⟨[Ev.fetched pageUrl], Except.error e, none⟩
    | Except.ok (_, html) =>
      let doc := parseHtml html
      match collectResources pageUrl doc with
      | none => ⟨[Ev.fetched pageUrl], Except.error PLError.urlTypeError, some doc⟩
      | some [] =>
        let (wEvs, wRes) := writeFileOrThrow w htmlPath html
        ⟨Ev.fetched pageUrl :: wEvs,
         match wRes with
         | Except.error e => Except.error e
         | Except.ok _ => Except.ok absoluteHtmlPath,
         some doc⟩
      | some (r :: rs) =>
        match mkdirOrThrow w filesDirPath with
        | (mkEvs, Except.error e) => ⟨Ev.fetched pageUrl :: mkEvs, Except.error e, some doc⟩
        | (mkEvs, Except.ok _) =>
          match buildJobs pu pageUrl filesDirname filesDirPath doc (r :: rs) with
          | none => ⟨Ev.fetched pageUrl :: mkEvs, Except.error PLError.urlTypeError, some doc⟩
          | some (doc', jobs) =>
            let (dEvs, dRes) := downloadResources w jobs
            match dRes with
            | Except.error e =>
              ⟨Ev.fetched pageUrl :: mkEvs ++ dEvs, Except.error e, some doc'⟩
            | Except.ok _ =>
              let (wEvs, wRes) := writeFileOrThrow w htmlPath (serializeHtml doc')
              ⟨Ev.fetched pageUrl :: mkEvs ++ dEvs ++ wEvs,
               match wRes with
               | Except.error e => Except.error e
               | Except.ok _ => Except.ok absoluteHtmlPath,
               some doc'⟩)
  | _, _, _ => ⟨[], Except.error PLError.urlTypeError, none⟩

/-! ## Helper lemmas -/

theorem takeWhile_eq_self_of_all {p : Char → Bool} :
    ∀ (l : List Char), (∀ c ∈ l, p c = true) → l.takeWhile p = l
  | [], _ => rfl
  | a :: l, h => by
    have ha := h a (by simp)
    simp only [List.takeWhile_cons, ha]
    exact congrArg (a :: ·) (takeWhile_eq_self_of_all l (fun c hc => h c (by simp [hc])))

theorem takeWhile_append_stop {p : Char → Bool} :
    ∀ (l : List Char) (c : Char) (t : List Char), (∀ x ∈ l, p x = true) → p c = false →
      (l ++ c :: t).takeWhile p = l
  | [], c, t, _, hc => by simp [List.takeWhile_cons, hc]
  | a :: l, c, t, h, hc => by
    have ha := h a (by simp)
    simp only [List.cons_append, List.takeWhile_cons, ha]
    exact congrArg (a :: ·) (takeWhile_append_stop l c t (fun x hx => h x (by simp [hx])) hc)

theorem stripQF_eq_self (ref : String) (h : ∀ c ∈ ref.data, c ≠ '?' ∧ c ≠ '#') :
    stripQF ref = ref.data :=
  takeWhile_eq_self_of_all ref.data (fun c hc => by simpa using h c hc)

theorem stripQF_append_sep (ref : String) (sep : Char) (q : String)
    (h : ∀ c ∈ ref.data, c ≠ '?' ∧ c ≠ '#') (hsep : sep = '?' ∨ sep = '#') :
    stripQF (ref ++ String.mk [sep] ++ q) = ref.data := by
  have hdata : (ref ++ String.mk [sep] ++ q).data = ref.data ++ sep :: q.data := by
    rw [String.data_append, String.data_append]
    simp
  unfold stripQF
  rw [hdata]
  refine takeWhile_append_stop ref.data sep q.data (fun x hx => by simpa using h x hx) ?_
  rcases hsep with h' | h' <;> subst h' <;> decide

theorem makeResourceFilename_congr (p a b : String) (hs : stripQF a = stripQF b) :
    makeResourceFilename p a = makeResourceFilename p b := by
  unfold makeResourceFilename resolveRef
  simp only [hs]

theorem data_pathJoin (a b : String) : (pathJoin a b).data = a.data ++ '/' :: b.data := by
  unfold pathJoin
  rw [String.data_append, String.data_append]
  simp

theorem replaceHtmlSuffix_append (b : String) :
    replaceHtmlSuffix (b ++ ".html") = b ++ "_files" := by
  unfold replaceHtmlSuffix
  have hdata : (b ++ ".html").data = b.data ++ ['.', 'h', 't', 'm', 'l'] := by
    rw [String.data_append]
  have hrev : (b ++ ".html").data.reverse = ['l', 'm', 't', 'h', '.'] ++ b.data.reverse := by
    rw [hdata, List.reverse_append]
    rfl
  have hlen : (['l', 'm', 't', 'h', '.'] : List Char).length = 5 := rfl
  rw [hrev]
  simp only [List.take_left' hlen, List.drop_left' hlen, List.reverse_reverse, if_pos]
  apply String.ext
  rw [String.data_append]

theorem makeHtmlFilenameFromUrl_eq (pageUrl : String) (pu : URLRec)
    (hp : parseURL pageUrl = some pu) :
    makeHtmlFilenameFromUrl pageUrl = some (sanitize (pu.host ++ pu.pathname) ++ ".html") := by
  unfold makeHtmlFilenameFromUrl
  rw [hp, Option.map_some']

theorem makeFilesDirnameFromUrl_eq (pageUrl : String) (pu : URLRec)
    (hp : parseURL pageUrl = some pu) :
    makeFilesDirnameFromUrl pageUrl = some (sanitize (pu.host ++ pu.pathname) ++ "_files") := by
  unfold makeFilesDirnameFromUrl
  rw [makeHtmlFilenameFromUrl_eq pageUrl pu hp, Option.map_some', replaceHtmlSuffix_append]

theorem sanitize_html_no_slash (s : String) : '/' ∉ (sanitize s ++ ".html").data := by
  rw [String.data_append]
  intro h
  rcases List.mem_append.mp h with h | h
  · unfold sanitize at h
    obtain ⟨a, _, ha⟩ := List.mem_map.mp h
    by_cases hA : a.isAlphanum
    · rw [if_pos hA] at ha
      subst ha
      exact absurd hA (by decide)
    · rw [if_neg hA] at ha
      exact absurd ha (by decide)
  · exact absurd h (by decide)

theorem htmlPath_ne_dest (od fd fn base : String) :
    pathJoin (pathJoin od fd) fn ≠ pathJoin od (sanitize base ++ ".html") := by
  intro h
  have hd := congrArg String.data h
  rw [data_pathJoin, data_pathJoin, data_pathJoin, List.append_assoc] at hd
  simp only [List.cons_append] at hd
  have h2 := List.append_cancel_left hd
  simp only [List.cons.injEq, true_and] at h2
  have hmem : '/' ∈ (sanitize base ++ ".html").data := by
    rw [← h2]
    exact List.mem_append_right _ (List.mem_cons_self _ _)
  exact sanitize_html_no_slash base hmem

theorem runJob_wrote_mem (w : World) (j : ResourceJob) (p c : String)
    (h : Ev.wrote p c ∈ (runJob w j).fst) : p = j.dest := by
  unfold runJob downloadAndSave at h
  cases hf : fetchOrThrow j.title (w.resourceOutcome j.title) with
  | error e =>
    rw [hf] at h
    simp at h
  | ok v =>
    obtain ⟨s, body⟩ := v
    rw [hf] at h
    unfold writeFileOrThrow at h
    by_cases hw : w.writeOk j.dest = true
    · simp only [hw, if_pos] at h
      rcases List.mem_cons.mp h with h | h
      · exact absurd h (by simp)
      · simp at h
        exact h.1
    · simp only [hw] at h
      simp at h

theorem downloadResources_wrote_mem (w : World) (p c : String) :
    ∀ jobs : List ResourceJob,
      Ev.wrote p c ∈ ((jobs.map (runJob w)).map Prod.fst).flatten →
      ∃ j ∈ jobs, p = j.dest
  | [], h => by simp at h
  | j :: rest, h => by
    simp only [List.map_cons, List.flatten_cons] at h
    rcases List.mem_append.mp h with h | h
    · exact ⟨j, List.mem_cons_self _ _, runJob_wrote_mem w j p c h⟩
    · obtain ⟨j', hj', he⟩ := downloadResources_wrote_mem w p c rest h
      exact ⟨j', List.mem_cons_of_mem _ hj', he⟩

theorem buildJobs_dest (pu : URLRec) (pageUrl fd fdp : String) :
    ∀ (rs : List Resource) (doc doc' : Doc) (jobs : List ResourceJob),
      buildJobs pu pageUrl fd fdp doc rs = some (doc', jobs) →
      ∀ j ∈ jobs, ∃ fn, j.dest = pathJoin fdp fn
  | [], doc, doc', jobs, h, j, hj => by
    simp only [buildJobs, Option.some.injEq, Prod.mk.injEq] at h
    rw [← h.2] at hj
    simp at hj
  | r :: rest, doc, doc', jobs, h, j, hj => by
    unfold buildJobs at h
    cases hres : resolveRef pu r.ref with
    | none => rw [hres] at h; exact absurd h (by simp)
    | some resolved =>
      rw [hres] at h
      cases hfn : makeResourceFilename pageUrl r.ref with
      | none => rw [hfn] at h; exact absurd h (by simp)
      | some fn =>
        rw [hfn] at h
        cases hrec : buildJobs pu pageUrl fd fdp
            (modifyAt doc r.idx (fun e => setAttr e r.attr (pathJoin fd fn))) rest with
        | none => simp only [hrec] at h; exact absurd h (by simp)
        | some v =>
          obtain ⟨docF, jobsF⟩ := v
          simp only [hrec, Option.some.injEq, Prod.mk.injEq] at h
          rw [← h.2] at hj
          rcases List.mem_cons.mp hj with hj | hj
          · exact ⟨fn, by rw [hj]⟩
          · exact buildJobs_dest pu pageUrl fd fdp rest _ docF jobsF hrec j hj

theorem getAttr_setAttr_same (e : Elem) (a v v0 : String) (h : getAttr e a = some v0) :
    getAttr (setAttr e a v) a = some v := by
  cases e with
  | img src =>
    by_cases ha : a = "src"
    · subst ha; simp [getAttr, setAttr]
    · simp [getAttr, ha] at h
  | script src =>
    by_cases ha : a = "src"
    · subst ha; simp [getAttr, setAttr]
    · simp [getAttr, ha] at h
  | link href rel =>
    by_cases ha : a = "href"
    · subst ha; simp [getAttr, setAttr]
    · simp [getAttr, ha] at h
  | text c => simp [getAttr] at h

theorem getAttr_setAttr_other (e : Elem) (a a' v : String) (h : a ≠ a') :
    getAttr (setAttr e a' v) a = getAttr e a := by
  cases e with
  | img src =>
    by_cases ha' : a' = "src"
    · subst ha'; simp [getAttr, setAttr, h]
    · simp [getAttr, setAttr, ha']
  | script src =>
    by_cases ha' : a' = "src"
    · subst ha'; simp [getAttr, setAttr, h]
    · simp [getAttr, setAttr, ha']
  | link href rel =>
    by_cases ha' : a' = "href"
    · subst ha'; simp [getAttr, setAttr, h]
    · simp [getAttr, setAttr, ha']
  | text c => simp [getAttr, setAttr]

theorem getElem?_modifyAt_self : ∀ (doc : Doc) (p : Nat) (f : Elem → Elem),
    (modifyAt doc p f)[p]? = doc[p]?.map f
  | [], _, _ => by simp [modifyAt]
  | _ :: _, 0, _ => by simp [modifyAt]
  | x :: rest, p + 1, f => by
    simp only [modifyAt, List.getElem?_cons_succ]
    exact getElem?_modifyAt_self rest p f

theorem getElem?_modifyAt_other : ∀ (doc : Doc) (p q : Nat) (f : Elem → Elem), p ≠ q →
    (modifyAt doc q f)[p]? = doc[p]?
  | [], _, _, _, _ => by simp [modifyAt]
  | x :: rest, p, 0, f, h => by
    cases p with
    | zero => exact absurd rfl h
    | succ p' => simp [modifyAt]
  | x :: rest, p, q + 1, f, h => by
    cases p with
    | zero => simp [modifyAt]
    | succ p' =>
      simp only [modifyAt, List.getElem?_cons_succ]
      exact getElem?_modifyAt_other rest p' q f (by omega)

theorem collectImgs_countP (pageUrl s : String)
    (hl : isLocalResource pageUrl s = some true) :
    ∀ (doc : Doc) (i : Nat) (l : List Resource), collectImgs pageUrl i doc = some l →
      l.countP (fun r => r.ref == s) = doc.countP (imgCarries s)
  | [], i, l, h => by
    simp only [collectImgs, Option.some.injEq] at h
    simp [← h]
  | Elem.img (some src) :: rest, i, l, h => by
    simp only [collectImgs] at h
    cases hloc : isLocalResource pageUrl src with
    | none => rw [hloc] at h; exact absurd h (by simp)
    | some b =>
      rw [hloc] at h
      cases hrec : collectImgs pageUrl (i + 1) rest with
      | none => rw [hrec] at h; exact absurd h (by simp)
      | some tail =>
        rw [hrec, Option.some.injEq] at h
        have htail := collectImgs_countP pageUrl s hl rest (i + 1) tail hrec
        rw [List.countP_cons, ← h]
        by_cases hs : src = s
        · subst hs
          rw [hl, Option.some.injEq] at hloc
          rw [← hloc]
          simp [List.countP_cons, htail, imgCarries]
        · have hbeq : (src == s) = false := by simp [hs]
          cases b <;> simp [List.countP_cons, htail, imgCarries, hbeq]
  | Elem.img none :: rest, i, l, h => by
    simp only [collectImgs] at h
    have := collectImgs_countP pageUrl s hl rest (i + 1) l h
    simp [List.countP_cons, this, imgCarries]
  | Elem.script osrc :: rest, i, l, h => by
    simp only [collectImgs] at h
    have := collectImgs_countP pageUrl s hl rest (i + 1) l h
    simp [List.countP_cons, this, imgCarries]
  | Elem.link href rel :: rest, i, l, h => by
    simp only [collectImgs] at h
    have := collectImgs_countP pageUrl s hl rest (i + 1) l h
    simp [List.countP_cons, this, imgCarries]
  | Elem.text c :: rest, i, l, h => by
    simp only [collectImgs] at h
    have := collectImgs_countP pageUrl s hl rest (i + 1) l h
    simp [List.countP_cons, this, imgCarries]

theorem collectScripts_countP (pageUrl s : String)
    (hl : isLocalResource pageUrl s = some true) :
    ∀ (doc : Doc) (i : Nat) (l : List Resource), collectScripts pageUrl i doc = some l →
      l.countP (fun r => r.ref == s) = doc.countP (scriptCarries s)
  | [], i, l, h => by
    simp only [collectScripts, Option.some.injEq] at h
    simp [← h]
  | Elem.script (some src) :: rest, i, l, h => by
    simp only [collectScripts] at h
    cases hloc : isLocalResource pageUrl src with
    | none => rw [hloc] at h; exact absurd h (by simp)
    | some b =>
      rw [hloc] at h
      cases hrec : collectScripts pageUrl (i + 1) rest with
      | none => rw [hrec] at h; exact absurd h (by simp)
      | some tail =>
        rw [hrec, Option.some.injEq] at h
        have htail := collectScripts_countP pageUrl s hl rest (i + 1) tail hrec
        rw [List.countP_cons, ← h]
        by_cases hs : src = s
        · subst hs
          rw [hl, Option.some.injEq] at hloc
          rw [← hloc]
          simp [List.countP_cons, htail, scriptCarries]
        · have hbeq : (src == s) = false := by simp [hs]
          cases b <;> simp [List.countP_cons, htail, scriptCarries, hbeq]
  | Elem.script none :: rest, i, l, h => by
    simp only [collectScripts] at h
    have := collectScripts_countP pageUrl s hl rest (i + 1) l h
    simp [List.countP_cons, this, scriptCarries]
  | Elem.img osrc :: rest, i, l, h => by
    simp only [collectScripts] at h
    have := collectScripts_countP pageUrl s hl rest (i + 1) l h
    simp [List.countP_cons, this, scriptCarries]
  | Elem.link href rel :: rest, i, l, h => by
    simp only [collectScripts] at h
    have := collectScripts_countP pageUrl s hl rest (i + 1) l h
    simp [List.countP_cons, this, scriptCarries]
  | Elem.text c :: rest, i, l, h => by
    simp only [collectScripts] at h
    have := collectScripts_countP pageUrl s hl rest (i + 1) l h
    simp [List.countP_cons, this, scriptCarries]

theorem collectLinks_countP (pageUrl s : String)
    (hl : isLocalResource pageUrl s = some true) :
    ∀ (doc : Doc) (i : Nat) (l : List Resource), collectLinks pageUrl i doc = some l →
      l.countP (fun r => r.ref == s) = doc.countP (linkCarries s)
  | [], i, l, h => by
    simp only [collectLinks, Option.some.injEq] at h
    simp [← h]
  | Elem.link (some href) rel :: rest, i, l, h => by
    simp only [collectLinks] at h
    by_cases hrel : lowerStr (rel.getD "") = "stylesheet" ∨ lowerStr (rel.getD "") = "canonical"
    · rw [if_pos hrel] at h
      cases hloc : isLocalResource pageUrl href with
      | none => rw [hloc] at h; exact absurd h (by simp)
      | some b =>
        rw [hloc] at h
        cases hrec : collectLinks pageUrl (i + 1) rest with
        | none => rw [hrec] at h; exact absurd h (by simp)
        | some tail =>
          rw [hrec, Option.some.injEq] at h
          have htail := collectLinks_countP pageUrl s hl rest (i + 1) tail hrec
          rw [List.countP_cons, ← h]
          by_cases hs : href = s
          · subst hs
            rw [hl, Option.some.injEq] at hloc
            rw [← hloc]
            simp [List.countP_cons, htail, linkCarries, hrel]
          · have hbeq : (href == s) = false := by simp [hs]
            cases b <;> simp [List.countP_cons, htail, linkCarries, hbeq]
    · rw [if_neg hrel] at h
      have := collectLinks_countP pageUrl s hl rest (i + 1) l h
      simp [List.countP_cons, this, linkCarries, hrel]
  | Elem.link none rel :: rest, i, l, h => by
    simp only [collectLinks] at h
    have := collectLinks_countP pageUrl s hl rest (i + 1) l h
    simp [List.countP_cons, this, linkCarries]
  | Elem.img osrc :: rest, i, l, h => by
    simp only [collectLinks] at h
    have := collectLinks_countP pageUrl s hl rest (i + 1) l h
    simp [List.countP_cons, this, linkCarries]
  | Elem.script osrc :: rest, i, l, h => by
    simp only [collectLinks] at h
    have := collectLinks_countP pageUrl s hl rest (i + 1) l h
    simp [List.countP_cons, this, linkCarries]
  | Elem.text c :: rest, i, l, h => by
    simp only [collectLinks] at h
    have := collectLinks_countP pageUrl s hl rest (i + 1) l h
    simp [List.countP_cons, this, linkCarries]

theorem countP_carriesRef_split (s : String) : ∀ doc : Doc,
    doc.countP (carriesRef s) =
      doc.countP (imgCarries s) + doc.countP (scriptCarries s) + doc.countP (linkCarries s)
  | [] => by simp
  | e :: rest => by
    rw [List.countP_cons, List.countP_cons, List.countP_cons, List.countP_cons,
      countP_carriesRef_split s rest]
    cases e with
    | img osrc =>
      cases osrc with
      | some src =>
        cases hsrc : (src == s) <;>
          simp [carriesRef, imgCarries, scriptCarries, linkCarries, hsrc] <;> omega
      | none => simp [carriesRef, imgCarries, scriptCarries, linkCarries]
    | script osrc =>
      cases osrc with
      | some src =>
        cases hsrc : (src == s) <;>
          simp [carriesRef, imgCarries, scriptCarries, linkCarries, hsrc] <;> omega
      | none => simp [carriesRef, imgCarries, scriptCarries, linkCarries]
    | link href rel =>
      cases href with
      | some href =>
        cases hc : (decide (lowerStr (rel.getD "") = "stylesheet" ∨
            lowerStr (rel.getD "") = "canonical") && (href == s)) <;>
          simp [carriesRef, imgCarries, scriptCarries, linkCarries, hc] <;> omega
      | none => simp [carriesRef, imgCarries, scriptCarries, linkCarries]
    | text c => simp [carriesRef, imgCarries, scriptCarries, linkCarries]

theorem collectImgs_consistent (pageUrl : String) :
    ∀ (doc : Doc) (i : Nat) (l : List Resource), collectImgs pageUrl i doc = some l →
      ∀ r ∈ l, i ≤ r.idx ∧ doc[r.idx - i]? = some (Elem.img (some r.ref)) ∧ r.attr = "src"
  | [], i, l, h => by
    simp only [collectImgs, Option.some.injEq] at h
    rw [← h]
    intro r hr
    simp at hr
  | Elem.img (some src) :: rest, i, l, h => by
    simp only [collectImgs] at h
    cases hloc : isLocalResource pageUrl src with
    | none => rw [hloc] at h; exact absurd h (by simp)
    | some b =>
      rw [hloc] at h
      cases hrec : collectImgs pageUrl (i + 1) rest with
      | none => rw [hrec] at h; exact absurd h (by simp)
      | some tail =>
        rw [hrec, Option.some.injEq] at h
        have htail := collectImgs_consistent pageUrl rest (i + 1) tail hrec
        have hstep : ∀ r ∈ tail, i ≤ r.idx ∧
            (Elem.img (some src) :: rest)[r.idx - i]? = some (Elem.img (some r.ref)) ∧
            r.attr = "src" := by
          intro r hr
          obtain ⟨h1, h2, h3⟩ := htail r hr
          refine ⟨by omega, ?_, h3⟩
          have hd : r.idx - i = (r.idx - (i + 1)) + 1 := by omega
          rw [hd, List.getElem?_cons_succ]
          exact h2
        rw [← h]
        cases b with
        | false => intro r hr; exact hstep r hr
        | true =>
          intro r hr
          rcases List.mem_cons.mp hr with hr | hr
          · subst hr
            simp
          · exact hstep r hr
  | Elem.img none :: rest, i, l, h => by
    simp only [collectImgs] at h
    intro r hr
    obtain ⟨h1, h2, h3⟩ := collectImgs_consistent pageUrl rest (i + 1) l h r hr
    refine ⟨by omega, ?_, h3⟩
    have hd : r.idx - i = (r.idx - (i + 1)) + 1 := by omega
    rw [hd, List.getElem?_cons_succ]
    exact h2
  | Elem.script osrc :: rest, i, l, h => by
    simp only [collectImgs] at h
    intro r hr
    obtain ⟨h1, h2, h3⟩ := collectImgs_consistent pageUrl rest (i + 1) l h r hr
    refine ⟨by omega, ?_, h3⟩
    have hd : r.idx - i = (r.idx - (i + 1)) + 1 := by omega
    rw [hd, List.getElem?_cons_succ]
    exact h2
  | Elem.link href rel :: rest, i, l, h => by
    simp only [collectImgs] at h
    intro r hr
    obtain ⟨h1, h2, h3⟩ := collectImgs_consistent pageUrl rest (i + 1) l h r hr
    refine ⟨by omega, ?_, h3⟩
    have hd : r.idx - i = (r.idx - (i + 1)) + 1 := by omega
    rw [hd, List.getElem?_cons_succ]
    exact h2
  | Elem.text c :: rest, i, l, h => by
    simp only [collectImgs] at h
    intro r hr
    obtain ⟨h1, h2, h3⟩ := collectImgs_consistent pageUrl rest (i + 1) l h r hr
    refine ⟨by omega, ?_, h3⟩
    have hd : r.idx - i = (r.idx - (i + 1)) + 1 := by omega
    rw [hd, List.getElem?_cons_succ]
    exact h2

theorem collectScripts_consistent (pageUrl : String) :
    ∀ (doc : Doc) (i : Nat) (l : List Resource), collectScripts pageUrl i doc = some l →
      ∀ r ∈ l, i ≤ r.idx ∧ doc[r.idx - i]? = some (Elem.script (some r.ref)) ∧ r.attr = "src"
  | [], i, l, h => by
    simp only [collectScripts, Option.some.injEq] at h
    rw [← h]
    intro r hr
    simp at hr
  | Elem.script (some src) :: rest, i, l, h => by
    simp only [collectScripts] at h
    cases hloc : isLocalResource pageUrl src with
    | none => rw [hloc] at h; exact absurd h (by simp)
    | some b =>
      rw [hloc] at h
      cases hrec : collectScripts pageUrl (i + 1) rest with
      | none => rw [hrec] at h; exact absurd h (by simp)
      | some tail =>
        rw [hrec, Option.some.injEq] at h
        have htail := collectScripts_consistent pageUrl rest (i + 1) tail hrec
        have hstep : ∀ r ∈ tail, i ≤ r.idx ∧
            (Elem.script (some src) :: rest)[r.idx - i]? = some (Elem.script (some r.ref)) ∧
            r.attr = "src" := by
          intro r hr
          obtain ⟨h1, h2, h3⟩ := htail r hr
          refine ⟨by omega, ?_, h3⟩
          have hd : r.idx - i = (r.idx - (i + 1)) + 1 := by omega
          rw [hd, List.getElem?_cons_succ]
          exact h2
        rw [← h]
        cases b with
        | false => intro r hr; exact hstep r hr
        | true =>
          intro r hr
          rcases List.mem_cons.mp hr with hr | hr
          · subst hr
            simp
          · exact hstep r hr
  | Elem.script none :: rest, i, l, h => by
    simp only [collectScripts] at h
    intro r hr
    obtain ⟨h1, h2, h3⟩ := collectScripts_consistent pageUrl rest (i + 1) l h r hr
    refine ⟨by omega, ?_, h3⟩
    have hd : r.idx - i = (r.idx - (i + 1)) + 1 := by omega
    rw [hd, List.getElem?_cons_succ]
    exact h2
  | Elem.img osrc :: rest, i, l, h => by
    simp only [collectScripts] at h
    intro r hr
    obtain ⟨h1, h2, h3⟩ := collectScripts_consistent pageUrl rest (i + 1) l h r hr
    refine ⟨by omega, ?_, h3⟩
    have hd : r.idx - i = (r.idx - (i + 1)) + 1 := by omega
    rw [hd, List.getElem?_cons_succ]
    exact h2
  | Elem.link href rel :: rest, i, l, h => by
    simp only [collectScripts] at h
    intro r hr
    obtain ⟨h1, h2, h3⟩ := collectScripts_consistent pageUrl rest (i + 1) l h r hr
    refine ⟨by omega, ?_, h3⟩
    have hd : r.idx - i = (r.idx - (i + 1)) + 1 := by omega
    rw [hd, List.getElem?_cons_succ]
    exact h2
  | Elem.text c :: rest, i, l, h => by
    simp only [collectScripts] at h
    intro r hr
    obtain ⟨h1, h2, h3⟩ := collectScripts_consistent pageUrl rest (i + 1) l h r hr
    refine ⟨by omega, ?_, h3⟩
    have hd : r.idx - i = (r.idx - (i + 1)) + 1 := by omega
    rw [hd, List.getElem?_cons_succ]
    exact h2

theorem collectLinks_consistent (pageUrl : String) :
    ∀ (doc : Doc) (i : Nat) (l : List Resource), collectLinks pageUrl i doc = some l →
      ∀ r ∈ l, i ≤ r.idx ∧
        (∃ rel, doc[r.idx - i]? = some (Elem.link (some r.ref) rel)) ∧ r.attr = "href"
  | [], i, l, h => by
    simp only [collectLinks, Option.some.injEq] at h
    rw [← h]
    intro r hr
    simp at hr
  | Elem.link (some href) rel :: rest, i, l, h => by
    simp only [collectLinks] at h
    have hnext : ∀ l, collectLinks pageUrl (i + 1) rest = some l →
        ∀ r ∈ l, i ≤ r.idx ∧
          ((Elem.link (some href) rel :: rest)[r.idx - i]? =
            some (Elem.link (some r.ref) rel) ∨
           ∃ rel2, (Elem.link (some href) rel :: rest)[r.idx - i]? =
            some (Elem.link (some r.ref) rel2)) ∧ r.attr = "href" := by
      intro l hl r hr
      obtain ⟨h1, h2, h3⟩ := collectLinks_consistent pageUrl rest (i + 1) l hl r hr
      obtain ⟨rel2, h2⟩ := h2
      refine ⟨by omega, Or.inr ⟨rel2, ?_⟩, h3⟩
      have hd : r.idx - i = (r.idx - (i + 1)) + 1 := by omega
      rw [hd, List.getElem?_cons_succ]
      exact h2
    by_cases hrel : lowerStr (rel.getD "") = "stylesheet" ∨ lowerStr (rel.getD "") = "canonical"
    · rw [if_pos hrel] at h
      cases hloc : isLocalResource pageUrl href with
      | none => rw [hloc] at h; exact absurd h (by simp)
      | some b =>
        rw [hloc] at h
        cases hrec : collectLinks pageUrl (i + 1) rest with
        | none => rw [hrec] at h; exact absurd h (by simp)
        | some tail =>
          rw [hrec, Option.some.injEq] at h
          rw [← h]
          have hstep := hnext tail hrec
          cases b with
          | false =>
            intro r hr
            obtain ⟨h1, h2, h3⟩ := hstep r hr
            exact ⟨h1, by rcases h2 with h2 | ⟨rel2, h2⟩; exacts [⟨rel, h2⟩, ⟨rel2, h2⟩], h3⟩
          | true =>
            intro r hr
            rcases List.mem_cons.mp hr with hr | hr
            · subst hr
              exact ⟨le_refl i, ⟨rel, by simp⟩, rfl⟩
            · obtain ⟨h1, h2, h3⟩ := hstep r hr
              exact ⟨h1, by rcases h2 with h2 | ⟨rel2, h2⟩; exacts [⟨rel, h2⟩, ⟨rel2, h2⟩], h3⟩
    · rw [if_neg hrel] at h
      intro r hr
      obtain ⟨h1, h2, h3⟩ := hnext l h r hr
      exact ⟨h1, by rcases h2 with h2 | ⟨rel2, h2⟩; exacts [⟨rel, h2⟩, ⟨rel2, h2⟩], h3⟩
  | Elem.link none rel :: rest, i, l, h => by
    simp only [collectLinks] at h
    intro r hr
    obtain ⟨h1, h2, h3⟩ := collectLinks_consistent pageUrl rest (i + 1) l h r hr
    obtain ⟨rel2, h2⟩ := h2
    refine ⟨by omega, ⟨rel2, ?_⟩, h3⟩
    have hd : r.idx - i = (r.idx - (i + 1)) + 1 := by omega
    rw [hd, List.getElem?_cons_succ]
    exact h2
  | Elem.img osrc :: rest, i, l, h => by
    simp only [collectLinks] at h
    intro r hr
    obtain ⟨h1, h2, h3⟩ := collectLinks_consistent pageUrl rest (i + 1) l h r hr
    obtain ⟨rel2, h2⟩ := h2
    refine ⟨by omega, ⟨rel2, ?_⟩, h3⟩
    have hd : r.idx - i = (r.idx - (i + 1)) + 1 := by omega
    rw [hd, List.getElem?_cons_succ]
    exact h2
  | Elem.script osrc :: rest, i, l, h => by
    simp only [collectLinks] at h
    intro r hr
    obtain ⟨h1, h2, h3⟩ := collectLinks_consistent pageUrl rest (i + 1) l h r hr
    obtain ⟨rel2, h2⟩ := h2
    refine ⟨by omega, ⟨rel2, ?_⟩, h3⟩
    have hd : r.idx - i = (r.idx - (i + 1)) + 1 := by omega
    rw [hd, List.getElem?_cons_succ]
    exact h2
  | Elem.text c :: rest, i, l, h => by
    simp only [collectLinks] at h
    intro r hr
    obtain ⟨h1, h2, h3⟩ := collectLinks_consistent pageUrl rest (i + 1) l h r hr
    obtain ⟨rel2, h2⟩ := h2
    refine ⟨by omega, ⟨rel2, ?_⟩, h3⟩
    have hd : r.idx - i = (r.idx - (i + 1)) + 1 := by omega
    rw [hd, List.getElem?_cons_succ]
    exact h2

theorem collectResources_consistent (pageUrl : String) (doc : Doc) (rs : List Resource)
    (h : collectResources pageUrl doc = some rs) :
    ∀ r ∈ rs, ∃ e, doc[r.idx]? = some e ∧ getAttr e r.attr = some r.ref := by
  unfold collectResources at h
  cases h1 : collectImgs pageUrl 0 doc with
  | none => rw [h1] at h; exact absurd h (by simp)
  | some imgs =>
    rw [h1] at h
    cases h2 : collectScripts pageUrl 0 doc with
    | none => rw [h2] at h; exact absurd h (by simp)
    | some scripts =>
      rw [h2] at h
      cases h3 : collectLinks pageUrl 0 doc with
      | none => rw [h3] at h; exact absurd h (by simp)
      | some links =>
        rw [h3, Option.some.injEq] at h
        rw [← h]
        intro r hr
        rcases List.mem_append.mp hr with hr | hr
        rcases List.mem_append.mp hr with hr | hr
        · obtain ⟨_, h2', h3'⟩ := collectImgs_consistent pageUrl doc 0 imgs h1 r hr
          rw [Nat.sub_zero] at h2'
          exact ⟨Elem.img (some r.ref), h2', by rw [h3']; simp [getAttr]⟩
        · obtain ⟨_, h2', h3'⟩ := collectScripts_consistent pageUrl doc 0 scripts h2 r hr
          rw [Nat.sub_zero] at h2'
          exact ⟨Elem.script (some r.ref), h2', by rw [h3']; simp [getAttr]⟩
        · obtain ⟨_, h2', h3'⟩ := collectLinks_consistent pageUrl doc 0 links h3 r hr
          obtain ⟨rel2, h2'⟩ := h2'
          rw [Nat.sub_zero] at h2'
          exact ⟨Elem.link (some r.ref) rel2, h2', by rw [h3']; simp [getAttr]⟩

theorem collectResources_agreement (pageUrl : String) (doc : Doc) (rs : List Resource)
    (h : collectResources pageUrl doc = some rs) :
    ∀ r1 ∈ rs, ∀ r2 ∈ rs, r1.idx = r2.idx → r1.attr = r2.attr → r1.ref = r2.ref := by
  intro r1 h1 r2 h2 hidx hattr
  obtain ⟨e1, he1, hg1⟩ := collectResources_consistent pageUrl doc rs h r1 h1
  obtain ⟨e2, he2, hg2⟩ := collectResources_consistent pageUrl doc rs h r2 h2
  rw [hidx] at he1
  rw [he2, Option.some.injEq] at he1
  rw [← he1, hattr, hg2, Option.some.injEq] at hg1
  exact hg1.symm

theorem buildJobs_length (pu : URLRec) (pageUrl fd fdp : String) :
    ∀ (rs : List Resource) (doc doc' : Doc) (jobs : List ResourceJob),
      buildJobs pu pageUrl fd fdp doc rs = some (doc', jobs) → jobs.length = rs.length
  | [], doc, doc', jobs, h => by
    simp only [buildJobs, Option.some.injEq, Prod.mk.injEq] at h
    rw [← h.2]
    rfl
  | r :: rest, doc, doc', jobs, h => by
    unfold buildJobs at h
    cases hres : resolveRef pu r.ref with
    | none => rw [hres] at h; exact absurd h (by simp)
    | some resolved =>
      rw [hres] at h
      cases hfn : makeResourceFilename pageUrl r.ref with
      | none => rw [hfn] at h; exact absurd h (by simp)
      | some fn =>
        rw [hfn] at h
        cases hrec : buildJobs pu pageUrl fd fdp
            (modifyAt doc r.idx (fun e => setAttr e r.attr (pathJoin fd fn))) rest with
        | none => simp only [hrec] at h; exact absurd h (by simp)
        | some v =>
          obtain ⟨docF, jobsF⟩ := v
          simp only [hrec, Option.some.injEq, Prod.mk.injEq] at h
          rw [← h.2]
          simp [buildJobs_length pu pageUrl fd fdp rest _ docF jobsF hrec]

theorem buildJobs_job_at (pu : URLRec) (pageUrl fd fdp s : String) (resolved : URLRec)
    (fn : String) (hres : resolveRef pu s = some resolved)
    (hfn : makeResourceFilename pageUrl s = some fn) :
    ∀ (rs : List Resource) (doc doc' : Doc) (jobs : List ResourceJob),
      buildJobs pu pageUrl fd fdp doc rs = some (doc', jobs) →
      ∀ (i : Nat) (h1 : i < rs.length) (h2 : i < jobs.length),
        (rs.get ⟨i, h1⟩).ref = s →
        jobs.get ⟨i, h2⟩ = ⟨urlToString resolved, pathJoin fdp fn, pathJoin fd fn⟩
  | [], doc, doc', jobs, h, i, h1, h2, hr => by simp at h1
  | r :: rest, doc, doc', jobs, h, i, h1, h2, hr => by
    unfold buildJobs at h
    cases hres0 : resolveRef pu r.ref with
    | none => rw [hres0] at h; exact absurd h (by simp)
    | some resolved0 =>
      rw [hres0] at h
      cases hfn0 : makeResourceFilename pageUrl r.ref with
      | none => rw [hfn0] at h; exact absurd h (by simp)
      | some fn0 =>
        rw [hfn0] at h
        cases hrec : buildJobs pu pageUrl fd fdp
            (modifyAt doc r.idx (fun e => setAttr e r.attr (pathJoin fd fn0))) rest with
        | none => simp only [hrec] at h; exact absurd h (by simp)
        | some v =>
          obtain ⟨docF, jobsF⟩ := v
          simp only [hrec, Option.some.injEq, Prod.mk.injEq] at h
          obtain ⟨hdoc, hjobs⟩ := h
          subst hjobs
          cases i with
          | zero =>
            simp only [List.get] at hr ⊢
            rw [hr] at hres0 hfn0
            rw [hres0, Option.some.injEq] at hres
            rw [hfn0, Option.some.injEq] at hfn
            rw [hres, hfn]
          | succ i' =>
            simp only [List.get] at hr ⊢
            exact buildJobs_job_at pu pageUrl fd fdp s resolved fn hres hfn rest _ docF jobsF
              hrec i' (by simpa using h1) (by simpa using h2) hr

theorem buildJobs_slot (pu : URLRec) (pageUrl fd fdp s fn : String)
    (hfn : makeResourceFilename pageUrl s = some fn) :
    ∀ (rs : List Resource) (doc doc' : Doc) (jobs : List ResourceJob) (p : Nat)
      (a v : String),
      buildJobs pu pageUrl fd fdp doc rs = some (doc', jobs) →
      (∀ r'' ∈ rs, r''.idx = p → r''.attr = a → r''.ref = s) →
      (∃ e, doc[p]? = some e ∧ getAttr e a = some v) →
      ∃ e v', doc'[p]? = some e ∧ getAttr e a = some v' ∧
        ((∃ r' ∈ rs, r'.idx = p ∧ r'.attr = a) → v' = pathJoin fd fn) ∧
        ((¬ ∃ r' ∈ rs, r'.idx = p ∧ r'.attr = a) → v' = v)
  | [], doc, doc', jobs, p, a, v, h, hslot, hcur => by
    simp only [buildJobs, Option.some.injEq, Prod.mk.injEq] at h
    obtain ⟨e, he, hg⟩ := hcur
    exact ⟨e, v, by rw [← h.1]; exact he, hg, by simp, fun _ => rfl⟩
  | r :: rest, doc, doc', jobs, p, a, v, h, hslot, hcur => by
    unfold buildJobs at h
    cases hres0 : resolveRef pu r.ref with
    | none => rw [hres0] at h; exact absurd h (by simp)
    | some resolved0 =>
      rw [hres0] at h
      cases hfn0 : makeResourceFilename pageUrl r.ref with
      | none => rw [hfn0] at h; exact absurd h (by simp)
      | some fn0 =>
        rw [hfn0] at h
        cases hrec : buildJobs pu pageUrl fd fdp
            (modifyAt doc r.idx (fun e => setAttr e r.attr (pathJoin fd fn0))) rest with
        | none => simp only [hrec] at h; exact absurd h (by simp)
        | some w =>
          obtain ⟨docF, jobsF⟩ := w
          simp only [hrec, Option.some.injEq, Prod.mk.injEq] at h
          obtain ⟨hdoc, hjobs⟩ := h
          subst hdoc
          obtain ⟨e, he, hg⟩ := hcur
          have hslot' : ∀ r'' ∈ rest, r''.idx = p → r''.attr = a → r''.ref = s :=
            fun r'' hm => hslot r'' (List.mem_cons_of_mem _ hm)
          by_cases hp : r.idx = p
          · by_cases ha : r.attr = a
            · -- the head entry rewrites exactly this slot, with the common value
              have hrs : r.ref = s := hslot r (List.mem_cons_self _ _) hp ha
              have hfneq : fn0 = fn := by
                rw [hrs] at hfn0
                rw [hfn0, Option.some.injEq] at hfn
                exact hfn
              have hcur' : ∃ e', (modifyAt doc r.idx
                  (fun e => setAttr e r.attr (pathJoin fd fn0)))[p]? = some e' ∧
                  getAttr e' a = some (pathJoin fd fn) := by
                refine ⟨setAttr e r.attr (pathJoin fd fn0), ?_, ?_⟩
                · rw [← hp, getElem?_modifyAt_self, hp, he, Option.map_some']
                · rw [ha, hfneq]
                  exact getAttr_setAttr_same e a (pathJoin fd fn) v hg
              obtain ⟨e', v', he', hg', himp, hunt⟩ := buildJobs_slot pu pageUrl fd fdp s fn
                hfn rest _ docF jobsF p a (pathJoin fd fn) hrec hslot' hcur'
              refine ⟨e', v', he', hg', ?_, ?_⟩
              · intro _
                by_cases htr : ∃ r' ∈ rest, r'.idx = p ∧ r'.attr = a
                · exact himp htr
                · exact hunt htr
              · intro hn
                exact absurd ⟨r, List.mem_cons_self _ _, hp, ha⟩ hn
            · -- same index, different attribute: the slot value is untouched
              have hcur' : ∃ e', (modifyAt doc r.idx
                    (fun e => setAttr e r.attr (pathJoin fd fn0)))[p]? = some e' ∧
                    getAttr e' a = some v := by
                  refine ⟨setAttr e r.attr (pathJoin fd fn0), ?_, ?_⟩
                  · rw [← hp, getElem?_modifyAt_self, hp, he, Option.map_some']
                  · rw [getAttr_setAttr_other e a r.attr (pathJoin fd fn0)
                      (fun hh => ha hh.symm)]
                    exact hg
              obtain ⟨e', v', he', hg', himp, hunt⟩ := buildJobs_slot pu pageUrl fd fdp s fn
                  hfn rest _ docF jobsF p a v hrec hslot' hcur'
              refine ⟨e', v', he', hg', ?_, ?_⟩
              · rintro ⟨r', hmem, hp', ha'⟩
                rcases List.mem_cons.mp hmem with hr' | hr'
                · exact absurd (hr' ▸ ha') ha
                · exact himp ⟨r', hr', hp', ha'⟩
              · intro hn
                refine hunt ?_
                rintro ⟨r', hr', hp', ha'⟩
                exact hn ⟨r', List.mem_cons_of_mem _ hr', hp', ha'⟩
          · -- different index: the slot is untouched by this rewrite
            have hcur' : ∃ e', (modifyAt doc r.idx
                (fun e => setAttr e r.attr (pathJoin fd fn0)))[p]? = some e' ∧
                getAttr e' a = some v := by
              refine ⟨e, ?_, hg⟩
              rw [getElem?_modifyAt_other doc p r.idx _ (fun hh => hp hh.symm)]
              exact he
            obtain ⟨e', v', he', hg', himp, hunt⟩ := buildJobs_slot pu pageUrl fd fdp s fn
              hfn rest _ docF jobsF p a v hrec hslot' hcur'
            refine ⟨e', v', he', hg', ?_, ?_⟩
            · rintro ⟨r', hmem, hp', ha'⟩
              rcases List.mem_cons.mp hmem with hr' | hr'
              · exact absurd (hr' ▸ hp') hp
              · exact himp ⟨r', hr', hp', ha'⟩
            · intro hn
              refine hunt ?_
              rintro ⟨r', hr', hp', ha'⟩
              exact hn ⟨r', List.mem_cons_of_mem _ hr', hp', ha'⟩

/-! ## Claim theorems (naming and locality) -/

/-- C9: for every valid page URL, `makeFilesDirnameFromUrl` equals
`makeHtmlFilenameFromUrl` with its trailing `.html` replaced by the fixed
`_files` suffix. -/
theorem filesDirname_is_pageFilename_with_suffix (pageUrl h : String)
    (hp : makeHtmlFilenameFromUrl pageUrl = some h) :
    ∃ b : String, h = b ++ ".html" ∧ makeFilesDirnameFromUrl pageUrl = some (b ++ "_files") := by
  obtain ⟨pu, hpu, hh⟩ := Option.map_eq_some'.mp hp
  refine ⟨sanitize (pu.host ++ pu.pathname), hh.symm, ?_⟩
  unfold makeFilesDirnameFromUrl
  rw [hp, Option.map_some', ← hh, replaceHtmlSuffix_append]

/-- C9 witness at the page URL of the repository's test fixture. -/
theorem filesDirname_is_pageFilename_with_suffix_witness :
    makeHtmlFilenameFromUrl "https://codica.la/cursos" = some "codica-la-cursos.html" ∧
    ∃ b : String, "codica-la-cursos.html" = b ++ ".html" ∧
      makeFilesDirnameFromUrl "https://codica.la/cursos" = some (b ++ "_files") :=
  ⟨by decide,
   filesDirname_is_pageFilename_with_suffix "https://codica.la/cursos" "codica-la-cursos.html"
     (by decide)⟩

/-- C8: the resource filename ends in `.html` when the resolved path has no
extension, and otherwise ends in that extension kept verbatim. -/
theorem makeResourceFilename_extension (pageUrl ref : String) (pu r : URLRec)
    (hp : parseURL pageUrl = some pu) (hr : resolveRef pu ref = some r) :
    ∃ fn, makeResourceFilename pageUrl ref = some fn ∧
      ((extname r.pathname = "" → ∃ base, fn = base ++ ".html") ∧
       (extname r.pathname ≠ "" → ∃ base, fn = base ++ extname r.pathname)) := by
  by_cases hext : extname r.pathname = ""
  · refine ⟨sanitize (pu.host ++ r.pathname) ++ ".html", ?_,
      fun _ => ⟨_, rfl⟩, fun hne => absurd hext hne⟩
    simp only [makeResourceFilename, hp, hr, hext, if_pos]
  · refine ⟨sanitize (pu.host ++ r.pathname.dropRight (extname r.pathname).length) ++
      extname r.pathname, ?_, fun heq => absurd heq hext, fun _ => ⟨_, rfl⟩⟩
    simp only [makeResourceFilename, hp, hr]
    simp [hext]

/-- C8 witness: a path with an extension keeps it; a path without one gets
`.html` (the repository's own test fixtures). -/
theorem makeResourceFilename_extension_witness :
    parseURL "https://codica.la/cursos" = some ⟨"https", "codica.la", "/cursos", false⟩ ∧
    resolveRef ⟨"https", "codica.la", "/cursos", false⟩ "/assets/professions/nodejs.png" =
      some ⟨"https", "codica.la", "/assets/professions/nodejs.png", false⟩ ∧
    (∃ fn, makeResourceFilename "https://codica.la/cursos" "/assets/professions/nodejs.png" =
        some fn ∧
      ((extname "/assets/professions/nodejs.png" = "" → ∃ base, fn = base ++ ".html") ∧
       (extname "/assets/professions/nodejs.png" ≠ "" →
         ∃ base, fn = base ++ extname "/assets/professions/nodejs.png"))) :=
  ⟨by decide, by decide,
   makeResourceFilename_extension "https://codica.la/cursos" "/assets/professions/nodejs.png"
     ⟨"https", "codica.la", "/cursos", false⟩
     ⟨"https", "codica.la", "/assets/professions/nodejs.png", false⟩ (by decide) (by decide)⟩

/-- C3: the resource filename is derived from only the path component of the
resolved reference: appending a query or a fragment to a reference changes
nothing, and two references resolving to the same pathname get the same
filename. -/
theorem makeResourceFilename_ignores_query (pageUrl ref q : String)
    (h : ∀ c ∈ ref.data, c ≠ '?' ∧ c ≠ '#') :
    makeResourceFilename pageUrl (ref ++ "?" ++ q) = makeResourceFilename pageUrl ref ∧
    makeResourceFilename pageUrl (ref ++ "#" ++ q) = makeResourceFilename pageUrl ref ∧
    ∀ (pu r₁ : URLRec) (ref₂ : String) (r₂ : URLRec), parseURL pageUrl = some pu →
      resolveRef pu ref = some r₁ → resolveRef pu ref₂ = some r₂ →
      r₁.pathname = r₂.pathname →
      makeResourceFilename pageUrl ref = makeResourceFilename pageUrl ref₂ := by
  refine ⟨?_, ?_, ?_⟩
  · exact makeResourceFilename_congr pageUrl (ref ++ "?" ++ q) ref
      (by rw [stripQF_eq_self ref h]
          exact stripQF_append_sep ref '?' q h (Or.inl rfl))
  · exact makeResourceFilename_congr pageUrl (ref ++ "#" ++ q) ref
      (by rw [stripQF_eq_self ref h]
          exact stripQF_append_sep ref '#' q h (Or.inr rfl))
  · intro pu r₁ ref₂ r₂ hpu hr₁ hr₂ hpath
    simp only [makeResourceFilename, hpu, hr₁, hr₂, hpath]

/-- C3 witness: a query string on a same-host reference contributes nothing to
the filename. -/
theorem makeResourceFilename_ignores_query_witness :
    (∀ c ∈ "/a/b.png".data, c ≠ '?' ∧ c ≠ '#') ∧
    makeResourceFilename "https://codica.la/cursos" ("/a/b.png" ++ "?" ++ "v=1") =
      makeResourceFilename "https://codica.la/cursos" "/a/b.png" ∧
    makeResourceFilename "https://codica.la/cursos" "/a/b.png" = some "codica-la-a-b.png" :=
  ⟨by decide,
   (makeResourceFilename_ignores_query "https://codica.la/cursos" "/a/b.png" "v=1"
     (by decide)).1,
   by decide⟩

/-- C1: `isLocalResource` returns `false` for an empty reference and for a
reference resolving to a `data:` URL, and otherwise returns `true` exactly
when the resolved host equals the page URL's host (string equality) —
including for a reference written as an absolute http/https URL on the same
host. -/
theorem isLocalResource_spec (pageUrl ref : String) (pu : URLRec)
    (hp : parseURL pageUrl = some pu) :
    (ref = "" → isLocalResource pageUrl ref = some false) ∧
    (∀ r : URLRec, ref ≠ "" → resolveRef pu ref = some r →
      (r.scheme = "data" → isLocalResource pageUrl ref = some false) ∧
      (r.scheme ≠ "data" → isLocalResource pageUrl ref = some (r.host == pu.host))) := by
  constructor
  · intro he
    unfold isLocalResource
    rw [if_pos he]
  · intro r hne hr
    constructor
    · intro hd
      simp only [isLocalResource, if_neg hne, hp, hr, hd, if_pos]
    · intro hd
      simp only [isLocalResource, if_neg hne, hp, hr, if_neg hd]

/-- C1 witness: an absolute https reference on the page's own host is local;
the hypotheses are discharged at the repository's test page URL. -/
theorem isLocalResource_spec_witness :
    parseURL "https://codica.la/cursos" = some ⟨"https", "codica.la", "/cursos", false⟩ ∧
    isLocalResource "https://codica.la/cursos" "https://codica.la/x.png" = some true := by
  refine ⟨by decide, ?_⟩
  have h := ((isLocalResource_spec "https://codica.la/cursos" "https://codica.la/x.png"
      ⟨"https", "codica.la", "/cursos", false⟩ (by decide)).2
      ⟨"https", "codica.la", "/x.png", false⟩ (by decide) (by decide)).2 (by decide)
  exact h.trans (by decide)

/-- C2 counterexample: the claim says `isLocal` never raises, but the code
calls `new URL(ref, pageUrl)` with no try/catch, and the protocol-relative
reference `//[` makes that constructor throw `TypeError: Invalid URL`
(modelled as `none`), so `isLocalResource` raises instead of returning a
boolean. -/
theorem isLocalResource_raises_counterexample :
    isLocalResource "https://example.com/page" "//[" = none := by decide

/-- C2 amended: `isLocalResource` returns a boolean (never raises) for every
reference that is empty or that resolves against the page URL; only a
reference that `new URL` cannot resolve makes it throw. -/
theorem isLocalResource_total_on_resolvable (pageUrl ref : String) (pu : URLRec)
    (hp : parseURL pageUrl = some pu)
    (h : ref = "" ∨ (resolveRef pu ref).isSome) :
    (isLocalResource pageUrl ref).isSome := by
  by_cases he : ref = ""
  · unfold isLocalResource
    rw [if_pos he]
    rfl
  · rcases h with h | h
    · exact absurd h he
    · obtain ⟨r, hr⟩ := Option.isSome_iff_exists.mp h
      by_cases hd : r.scheme = "data"
      · simp only [isLocalResource, if_neg he, hp, hr, hd, if_pos]
        rfl
      · simp only [isLocalResource, if_neg he, hp, hr, if_neg hd]
        rfl

/-- C5: fetch failures are classified into exactly one typed category: a
response with a non-success status yields `HttpError` carrying that status
and the fetched URL (whether the promise fulfilled or rejected with the
response attached), a fetch obtaining no response yields `NetworkError`
carrying the transport cause; in particular a main-page 404 fails the
whole operation with `HttpError` carrying 404 and the page URL. -/
theorem fetch_failure_classification :
    (∀ (url : String) (status : Nat), 0 < status → status ≠ 200 →
      fetchOrThrow url (FetchOutcome.rejectedWithResponse status) =
        Except.error (PLError.httpError url status)) ∧
    (∀ (url : String) (status : Nat) (body : String), status ≠ 200 →
      fetchOrThrow url (FetchOutcome.fulfilled status body) =
        Except.error (PLError.httpError url status)) ∧
    (∀ url code : String, fetchOrThrow url (FetchOutcome.rejectedNoResponse code) =
      Except.error (PLError.networkError url code)) ∧
    ∀ (parseHtml : String → Doc) (serializeHtml : Doc → String) (w : World)
      (pageUrl outputDir : String) (pu : URLRec),
      parseURL pageUrl = some pu →
      w.pageOutcome = FetchOutcome.rejectedWithResponse 404 →
      (pageLoader parseHtml serializeHtml w pageUrl outputDir).result =
        Except.error (PLError.httpError pageUrl 404) := by
  refine ⟨?_, ?_, ?_, ?_⟩
  · intro url status h0 _
    have hne : status ≠ 0 := by omega
    simp only [fetchOrThrow]
    rw [if_pos hne]
  · intro url status body h200
    simp only [fetchOrThrow]
    rw [if_pos h200]
  · intro url code
    rfl
  · intro parseHtml serializeHtml w pageUrl outputDir pu hp hfetch
    simp [pageLoader, makeHtmlFilenameFromUrl_eq pageUrl pu hp,
      makeFilesDirnameFromUrl_eq pageUrl pu hp, hp, hfetch, fetchOrThrow]

/-- C5 witness: the three classifications and the 404-page scenario at
concrete inputs. -/
theorem fetch_failure_classification_witness :
    fetchOrThrow "https://codica.la/cursos" (FetchOutcome.rejectedWithResponse 404) =
      Except.error (PLError.httpError "https://codica.la/cursos" 404) ∧
    fetchOrThrow "https://codica.la/cursos" (FetchOutcome.fulfilled 500 "oops") =
      Except.error (PLError.httpError "https://codica.la/cursos" 500) ∧
    fetchOrThrow "https://codica.la/cursos" (FetchOutcome.rejectedNoResponse "ECONNREFUSED") =
      Except.error (PLError.networkError "https://codica.la/cursos" "ECONNREFUSED") ∧
    (pageLoader (fun _ => []) (fun _ => "")
        ⟨FetchOutcome.rejectedWithResponse 404, fun _ => FetchOutcome.rejectedNoResponse "X",
          true, fun _ => true⟩
        "https://codica.la/cursos" "/tmp/out").result =
      Except.error (PLError.httpError "https://codica.la/cursos" 404) :=
  ⟨fetch_failure_classification.1 "https://codica.la/cursos" 404 (by decide) (by decide),
   fetch_failure_classification.2.1 "https://codica.la/cursos" 500 "oops" (by decide),
   fetch_failure_classification.2.2.1 "https://codica.la/cursos" "ECONNREFUSED",
   fetch_failure_classification.2.2.2 (fun _ => []) (fun _ => "")
     ⟨FetchOutcome.rejectedWithResponse 404, fun _ => FetchOutcome.rejectedNoResponse "X",
       true, fun _ => true⟩
     "https://codica.la/cursos" "/tmp/out" ⟨"https", "codica.la", "/cursos", false⟩
     (by decide) rfl⟩

/-- C6: when the resources directory cannot be created (the non-recursive
`fs.mkdir` fails, e.g. because the output directory does not exist) and at
least one local resource was collected, the operation fails with a storage
failure carrying the resources-directory path, and no resource download is
attempted (the only fetch in the trace is the page itself). -/
theorem storage_failure_before_downloads
    (parseHtml : String → Doc) (serializeHtml : Doc → String) (w : World)
    (pageUrl outputDir html : String) (pu : URLRec) (r : Resource) (rs : List Resource)
    (hp : parseURL pageUrl = some pu)
    (hfetch : w.pageOutcome = FetchOutcome.fulfilled 200 html)
    (hcollect : collectResources pageUrl (parseHtml html) = some (r :: rs))
    (hmk : w.mkdirOk = false) :
    (pageLoader parseHtml serializeHtml w pageUrl outputDir).result =
      Except.error (PLError.fileSystemError
        (pathJoin outputDir (sanitize (pu.host ++ pu.pathname) ++ "_files"))) ∧
    (pageLoader parseHtml serializeHtml w pageUrl outputDir).events = [Ev.fetched pageUrl] ∧
    ∀ u, u ≠ pageUrl →
      Ev.fetched u ∉ (pageLoader parseHtml serializeHtml w pageUrl outputDir).events := by
  have key : pageLoader parseHtml serializeHtml w pageUrl outputDir =
      ⟨[Ev.fetched pageUrl],
       Except.error (PLError.fileSystemError
         (pathJoin outputDir (sanitize (pu.host ++ pu.pathname) ++ "_files"))),
       some (parseHtml html)⟩ := by
    simp [pageLoader, makeHtmlFilenameFromUrl_eq pageUrl pu hp,
      makeFilesDirnameFromUrl_eq pageUrl pu hp, hp, hfetch, fetchOrThrow, hcollect,
      mkdirOrThrow, hmk]
  rw [key]
  refine ⟨rfl, rfl, ?_⟩
  intro u hu hmem
  simp at hmem
  exact hu hmem

/-- C6 witness: a missing output directory (mkdir fails) with one local
image reference. -/
theorem storage_failure_before_downloads_witness :
    collectResources "https://codica.la/cursos" [Elem.img (some "/a.png")] =
      some [⟨0, "src", "/a.png"⟩] ∧
    (pageLoader (fun _ => [Elem.img (some "/a.png")]) (fun _ => "")
        ⟨FetchOutcome.fulfilled 200 "PAGE", fun _ => FetchOutcome.fulfilled 200 "B",
          false, fun _ => true⟩
        "https://codica.la/cursos" "/tmp/out").result =
      Except.error (PLError.fileSystemError
        (pathJoin "/tmp/out" (sanitize ("codica.la" ++ "/cursos") ++ "_files"))) ∧
    (pageLoader (fun _ => [Elem.img (some "/a.png")]) (fun _ => "")
        ⟨FetchOutcome.fulfilled 200 "PAGE", fun _ => FetchOutcome.fulfilled 200 "B",
          false, fun _ => true⟩
        "https://codica.la/cursos" "/tmp/out").events =
      [Ev.fetched "https://codica.la/cursos"] :=
  have h := storage_failure_before_downloads (fun _ => [Elem.img (some "/a.png")]) (fun _ => "")
    ⟨FetchOutcome.fulfilled 200 "PAGE", fun _ => FetchOutcome.fulfilled 200 "B",
      false, fun _ => true⟩
    "https://codica.la/cursos" "/tmp/out" "PAGE" ⟨"https", "codica.la", "/cursos", false⟩
    ⟨0, "src", "/a.png"⟩ [] (by decide) rfl (by decide) rfl
  ⟨by decide, h.1, h.2.1⟩

/-- C7: with zero collected local resources the operation writes the fetched
body itself — byte-identical, for every conceivable serializer, so the
document is not re-serialized from the parsed tree — and creates no
resources directory. -/
theorem zero_resources_saves_original_bytes
    (parseHtml : String → Doc) (serializeHtml : Doc → String) (w : World)
    (pageUrl outputDir html : String) (pu : URLRec)
    (hp : parseURL pageUrl = some pu)
    (hfetch : w.pageOutcome = FetchOutcome.fulfilled 200 html)
    (hcollect : collectResources pageUrl (parseHtml html) = some [])
    (hw : w.writeOk (pathJoin outputDir (sanitize (pu.host ++ pu.pathname) ++ ".html")) = true) :
    (pageLoader parseHtml serializeHtml w pageUrl outputDir).events =
      [Ev.fetched pageUrl,
       Ev.wrote (pathJoin outputDir (sanitize (pu.host ++ pu.pathname) ++ ".html")) html] ∧
    (pageLoader parseHtml serializeHtml w pageUrl outputDir).result =
      Except.ok (pathJoin outputDir (sanitize (pu.host ++ pu.pathname) ++ ".html")) ∧
    ∀ d, Ev.madeDir d ∉ (pageLoader parseHtml serializeHtml w pageUrl outputDir).events := by
  have key : pageLoader parseHtml serializeHtml w pageUrl outputDir =
      ⟨[Ev.fetched pageUrl,
        Ev.wrote (pathJoin outputDir (sanitize (pu.host ++ pu.pathname) ++ ".html")) html],
       Except.ok (pathJoin outputDir (sanitize (pu.host ++ pu.pathname) ++ ".html")),
       some (parseHtml html)⟩ := by
    simp [pageLoader, makeHtmlFilenameFromUrl_eq pageUrl pu hp,
      makeFilesDirnameFromUrl_eq pageUrl pu hp, hp, hfetch, fetchOrThrow, hcollect,
      writeFileOrThrow, hw]
  rw [key]
  refine ⟨rfl, rfl, ?_⟩
  intro d hmem
  simp at hmem

/-- C7 witness: a page with only cross-origin and non-tracked references has
zero local resources; its body is written back verbatim even though the
serializer is the constant `"SERIALIZED"`. -/
theorem zero_resources_saves_original_bytes_witness :
    collectResources "https://codica.la/cursos"
      [Elem.script (some "https://js.stripe.com/v3/"), Elem.text "hi"] = some [] ∧
    (pageLoader (fun _ => [Elem.script (some "https://js.stripe.com/v3/"), Elem.text "hi"])
        (fun _ => "SERIALIZED")
        ⟨FetchOutcome.fulfilled 200 "PAGE", fun _ => FetchOutcome.fulfilled 200 "B",
          true, fun _ => true⟩
        "https://codica.la/cursos" "/tmp/out").events =
      [Ev.fetched "https://codica.la/cursos",
       Ev.wrote (pathJoin "/tmp/out" (sanitize ("codica.la" ++ "/cursos") ++ ".html")) "PAGE"] ∧
    ∀ d, Ev.madeDir d ∉
      (pageLoader (fun _ => [Elem.script (some "https://js.stripe.com/v3/"), Elem.text "hi"])
        (fun _ => "SERIALIZED")
        ⟨FetchOutcome.fulfilled 200 "PAGE", fun _ => FetchOutcome.fulfilled 200 "B",
          true, fun _ => true⟩
        "https://codica.la/cursos" "/tmp/out").events :=
  have h := zero_resources_saves_original_bytes
    (fun _ => [Elem.script (some "https://js.stripe.com/v3/"), Elem.text "hi"])
    (fun _ => "SERIALIZED")
    ⟨FetchOutcome.fulfilled 200 "PAGE", fun _ => FetchOutcome.fulfilled 200 "B",
      true, fun _ => true⟩
    "https://codica.la/cursos" "/tmp/out" "PAGE" ⟨"https", "codica.la", "/cursos", false⟩
    (by decide) rfl (by decide) rfl
  ⟨by decide, h.1, h.2.2⟩

/-- C4: when any one of the concurrent resource jobs fails, the whole load
operation fails with that (first-settled) failure and the final serialized
document is never written to disk — although every attribute rewrite has
already been applied to the in-memory document (`finalDoc` is the fully
rewritten tree `doc'` produced before the downloads ran). -/
theorem job_failure_fails_whole_no_final_write
    (parseHtml : String → Doc) (serializeHtml : Doc → String) (w : World)
    (pageUrl outputDir html : String) (pu : URLRec) (r : Resource) (rs : List Resource)
    (doc' : Doc) (jobs : List ResourceJob) (e : PLError)
    (hp : parseURL pageUrl = some pu)
    (hfetch : w.pageOutcome = FetchOutcome.fulfilled 200 html)
    (hcollect : collectResources pageUrl (parseHtml html) = some (r :: rs))
    (hmk : w.mkdirOk = true)
    (hbuild : buildJobs pu pageUrl (sanitize (pu.host ++ pu.pathname) ++ "_files")
      (pathJoin outputDir (sanitize (pu.host ++ pu.pathname) ++ "_files"))
      (parseHtml html) (r :: rs) = some (doc', jobs))
    (hfail : firstError ((jobs.map (runJob w)).map Prod.snd) = Except.error e) :
    (pageLoader parseHtml serializeHtml w pageUrl outputDir).result = Except.error e ∧
    (pageLoader parseHtml serializeHtml w pageUrl outputDir).finalDoc = some doc' ∧
    ∀ c, Ev.wrote (pathJoin outputDir (sanitize (pu.host ++ pu.pathname) ++ ".html")) c ∉
      (pageLoader parseHtml serializeHtml w pageUrl outputDir).events := by
  have hfok : fetchOrThrow pageUrl (FetchOutcome.fulfilled 200 html) =
      Except.ok (200, html) := by
    simp [fetchOrThrow]
  have hmkok : mkdirOrThrow w
      (pathJoin outputDir (sanitize (pu.host ++ pu.pathname) ++ "_files")) =
      ([Ev.madeDir (pathJoin outputDir (sanitize (pu.host ++ pu.pathname) ++ "_files"))],
       Except.ok ()) := by
    simp [mkdirOrThrow, hmk]
  have hdl : downloadResources w jobs =
      (((jobs.map (runJob w)).map Prod.fst).flatten, Except.error e) := by
    unfold downloadResources
    simp only [hfail]
  have key : pageLoader parseHtml serializeHtml w pageUrl outputDir =
      ⟨Ev.fetched pageUrl ::
        [Ev.madeDir (pathJoin outputDir (sanitize (pu.host ++ pu.pathname) ++ "_files"))] ++
        ((jobs.map (runJob w)).map Prod.fst).flatten,
       Except.error e, some doc'⟩ := by
    simp only [pageLoader, makeHtmlFilenameFromUrl_eq pageUrl pu hp,
      makeFilesDirnameFromUrl_eq pageUrl pu hp, hp, hfetch, hfok, hcollect, hmkok, hbuild, hdl]
  rw [key]
  refine ⟨rfl, rfl, ?_⟩
  intro c hmem
  simp only [List.singleton_append, List.cons_append, List.nil_append] at hmem
  rcases List.mem_cons.mp hmem with h | hmem
  · exact absurd h (by simp)
  rcases List.mem_cons.mp hmem with h | hmem
  · exact absurd h (by simp)
  obtain ⟨j, hj, hdest⟩ := downloadResources_wrote_mem w _ c jobs hmem
  obtain ⟨fn, hfn⟩ := buildJobs_dest pu pageUrl
    (sanitize (pu.host ++ pu.pathname) ++ "_files")
    (pathJoin outputDir (sanitize (pu.host ++ pu.pathname) ++ "_files"))
    (r :: rs) (parseHtml html) doc' jobs hbuild j hj
  rw [hfn] at hdest
  exact htmlPath_ne_dest outputDir (sanitize (pu.host ++ pu.pathname) ++ "_files") fn
    (pu.host ++ pu.pathname) hdest.symm

/-- C4 witness: two local images, the second download rejects with a
connectivity failure; the operation fails with it, both rewrites are in the
final tree, and the page file is never written. -/
theorem job_failure_fails_whole_no_final_write_witness :
    (pageLoader (fun _ => [Elem.img (some "/a.png"), Elem.img (some "/b.png")]) (fun _ => "S")
        ⟨FetchOutcome.fulfilled 200 "PAGE",
          fun u => if u = "https://codica.la/b.png" then FetchOutcome.rejectedNoResponse
            "ECONNREFUSED" else FetchOutcome.fulfilled 200 "B",
          true, fun _ => true⟩
        "https://codica.la/cursos" "/tmp/out").result =
      Except.error (PLError.networkError "https://codica.la/b.png" "ECONNREFUSED") ∧
    (pageLoader (fun _ => [Elem.img (some "/a.png"), Elem.img (some "/b.png")]) (fun _ => "S")
        ⟨FetchOutcome.fulfilled 200 "PAGE",
          fun u => if u = "https://codica.la/b.png" then FetchOutcome.rejectedNoResponse
            "ECONNREFUSED" else FetchOutcome.fulfilled 200 "B",
          true, fun _ => true⟩
        "https://codica.la/cursos" "/tmp/out").finalDoc =
      some [Elem.img (some "codica-la-cursos_files/codica-la-a.png"),
        Elem.img (some "codica-la-cursos_files/codica-la-b.png")] ∧
    ∀ c, Ev.wrote (pathJoin "/tmp/out" (sanitize ("codica.la" ++ "/cursos") ++ ".html")) c ∉
      (pageLoader (fun _ => [Elem.img (some "/a.png"), Elem.img (some "/b.png")]) (fun _ => "S")
        ⟨FetchOutcome.fulfilled 200 "PAGE",
          fun u => if u = "https://codica.la/b.png" then FetchOutcome.rejectedNoResponse
            "ECONNREFUSED" else FetchOutcome.fulfilled 200 "B",
          true, fun _ => true⟩
        "https://codica.la/cursos" "/tmp/out").events :=
  have h := job_failure_fails_whole_no_final_write
    (fun _ => [Elem.img (some "/a.png"), Elem.img (some "/b.png")]) (fun _ => "S")
    ⟨FetchOutcome.fulfilled 200 "PAGE",
      fun u => if u = "https://codica.la/b.png" then FetchOutcome.rejectedNoResponse
        "ECONNREFUSED" else FetchOutcome.fulfilled 200 "B",
      true, fun _ => true⟩
    "https://codica.la/cursos" "/tmp/out" "PAGE" ⟨"https", "codica.la", "/cursos", false⟩
    ⟨0, "src", "/a.png"⟩ [⟨1, "src", "/b.png"⟩]
    [Elem.img (some "codica-la-cursos_files/codica-la-a.png"),
      Elem.img (some "codica-la-cursos_files/codica-la-b.png")]
    [⟨"https://codica.la/a.png", "/tmp/out/codica-la-cursos_files/codica-la-a.png",
        "codica-la-cursos_files/codica-la-a.png"⟩,
      ⟨"https://codica.la/b.png", "/tmp/out/codica-la-cursos_files/codica-la-b.png",
        "codica-la-cursos_files/codica-la-b.png"⟩]
    (PLError.networkError "https://codica.la/b.png" "ECONNREFUSED")
    (by decide) rfl (by decide) rfl (by decide) rfl
  ⟨h.1, h.2.1, h.2.2⟩

/-- C10: duplicate references are not deduplicated, for every document: when
k matching elements (images, scripts or tracked links, in any arrangement and
interleaved with any other content) carry the same local reference `s`,
extraction produces exactly k separate entries for `s` (one per matching
element), orchestration creates one job per entry — every `s`-entry's job
fetching the same absolute URL and writing to the same destination path —
and in the final document every one of those elements' attributes holds the
same local relative path. -/
theorem duplicate_refs_make_k_jobs (pageUrl s fd fdp : String) (pu resolved : URLRec)
    (fn : String) (doc : Doc) (rs : List Resource) (doc' : Doc) (jobs : List ResourceJob)
    (hl : isLocalResource pageUrl s = some true)
    (hres : resolveRef pu s = some resolved)
    (hfn : makeResourceFilename pageUrl s = some fn)
    (hcol : collectResources pageUrl doc = some rs)
    (hbuild : buildJobs pu pageUrl fd fdp doc rs = some (doc', jobs)) :
    rs.countP (fun r => r.ref == s) = doc.countP (carriesRef s) ∧
    jobs.length = rs.length ∧
    (∀ (i : Nat) (h1 : i < rs.length) (h2 : i < jobs.length),
      (rs.get ⟨i, h1⟩).ref = s →
      jobs.get ⟨i, h2⟩ = ⟨urlToString resolved, pathJoin fdp fn, pathJoin fd fn⟩) ∧
    ∀ r' ∈ rs, r'.ref = s →
      ∃ e, doc'[r'.idx]? = some e ∧ getAttr e r'.attr = some (pathJoin fd fn) := by
  refine ⟨?_, buildJobs_length pu pageUrl fd fdp rs doc doc' jobs hbuild,
    fun i h1 h2 =>
      buildJobs_job_at pu pageUrl fd fdp s resolved fn hres hfn rs doc doc' jobs hbuild i h1 h2,
    ?_⟩
  · unfold collectResources at hcol
    cases h1 : collectImgs pageUrl 0 doc with
    | none => rw [h1] at hcol; exact absurd hcol (by simp)
    | some imgs =>
      rw [h1] at hcol
      cases h2 : collectScripts pageUrl 0 doc with
      | none => rw [h2] at hcol; exact absurd hcol (by simp)
      | some scripts =>
        rw [h2] at hcol
        cases h3 : collectLinks pageUrl 0 doc with
        | none => rw [h3] at hcol; exact absurd hcol (by simp)
        | some links =>
          rw [h3, Option.some.injEq] at hcol
          rw [← hcol, List.countP_append, List.countP_append,
            collectImgs_countP pageUrl s hl doc 0 imgs h1,
            collectScripts_countP pageUrl s hl doc 0 scripts h2,
            collectLinks_countP pageUrl s hl doc 0 links h3,
            countP_carriesRef_split s doc]
  · intro r' hmem hrs
    obtain ⟨e, he, hg⟩ := collectResources_consistent pageUrl doc rs hcol r' hmem
    have hagree := collectResources_agreement pageUrl doc rs hcol
    have hslot : ∀ r'' ∈ rs, r''.idx = r'.idx → r''.attr = r'.attr → r''.ref = s := by
      intro r'' hm hidx hattr
      rw [hagree r'' hm r' hmem hidx hattr]
      exact hrs
    obtain ⟨e', v', he', hg', himp, _⟩ := buildJobs_slot pu pageUrl fd fdp s fn hfn rs doc
      doc' jobs r'.idx r'.attr r'.ref hbuild hslot ⟨e, he, hg⟩
    rw [himp ⟨r', hmem, rfl, rfl⟩] at hg'
    exact ⟨e', he', hg'⟩

/-- C10 witness: a document interleaving text, two duplicate local images, a
cross-origin script, a duplicate local stylesheet link and an ignored icon
link — three matching elements carrying `/a.png` give three entries, three
identical jobs, and three identically rewritten attributes. -/
theorem duplicate_refs_make_k_jobs_witness :
    collectResources "https://codica.la/cursos"
      [Elem.text "x", Elem.img (some "/a.png"), Elem.script (some "https://js.stripe.com/v3/"),
       Elem.img (some "/a.png"), Elem.link (some "/a.png") (some "stylesheet"),
       Elem.link (some "/icon.png") (some "icon")] =
      some [⟨1, "src", "/a.png"⟩, ⟨3, "src", "/a.png"⟩, ⟨4, "href", "/a.png"⟩] ∧
    ([(⟨1, "src", "/a.png"⟩ : Resource), ⟨3, "src", "/a.png"⟩, ⟨4, "href", "/a.png"⟩].countP
        (fun r => r.ref == "/a.png")) =
      ([Elem.text "x", Elem.img (some "/a.png"), Elem.script (some "https://js.stripe.com/v3/"),
        Elem.img (some "/a.png"), Elem.link (some "/a.png") (some "stylesheet"),
        Elem.link (some "/icon.png") (some "icon")].countP (carriesRef "/a.png")) ∧
    ([(⟨"https://codica.la/a.png", "FDP/codica-la-a.png", "FD/codica-la-a.png"⟩ : ResourceJob),
      ⟨"https://codica.la/a.png", "FDP/codica-la-a.png", "FD/codica-la-a.png"⟩,
      ⟨"https://codica.la/a.png", "FDP/codica-la-a.png", "FD/codica-la-a.png"⟩].get
        ⟨2, by decide⟩ =
      ⟨urlToString ⟨"https", "codica.la", "/a.png", false⟩, pathJoin "FDP" "codica-la-a.png",
        pathJoin "FD" "codica-la-a.png"⟩) ∧
    ∃ e, ([Elem.text "x", Elem.img (some "FD/codica-la-a.png"),
        Elem.script (some "https://js.stripe.com/v3/"), Elem.img (some "FD/codica-la-a.png"),
        Elem.link (some "FD/codica-la-a.png") (some "stylesheet"),
        Elem.link (some "/icon.png") (some "icon")] : Doc)[4]? = some e ∧
      getAttr e "href" = some (pathJoin "FD" "codica-la-a.png") :=
  have h := duplicate_refs_make_k_jobs "https://codica.la/cursos" "/a.png" "FD" "FDP"
    ⟨"https", "codica.la", "/cursos", false⟩ ⟨"https", "codica.la", "/a.png", false⟩
    "codica-la-a.png"
    [Elem.text "x", Elem.img (some "/a.png"), Elem.script (some "https://js.stripe.com/v3/"),
     Elem.img (some "/a.png"), Elem.link (some "/a.png") (some "stylesheet"),
     Elem.link (some "/icon.png") (some "icon")]
    [⟨1, "src", "/a.png"⟩, ⟨3, "src", "/a.png"⟩, ⟨4, "href", "/a.png"⟩]
    [Elem.text "x", Elem.img (some "FD/codica-la-a.png"),
     Elem.script (some "https://js.stripe.com/v3/"), Elem.img (some "FD/codica-la-a.png"),
     Elem.link (some "FD/codica-la-a.png") (some "stylesheet"),
     Elem.link (some "/icon.png") (some "icon")]
    [⟨"https://codica.la/a.png", "FDP/codica-la-a.png", "FD/codica-la-a.png"⟩,
     ⟨"https://codica.la/a.png", "FDP/codica-la-a.png", "FD/codica-la-a.png"⟩,
     ⟨"https://codica.la/a.png", "FDP/codica-la-a.png", "FD/codica-la-a.png"⟩]
    (by decide) (by decide) (by decide) (by decide) (by decide)
  ⟨by decide, h.1, h.2.2.1 2 (by decide) (by decide) rfl,
   h.2.2.2 ⟨4, "href", "/a.png"⟩ (by decide) rfl⟩

/-- C2 amended witness: a relative stylesheet reference resolves, so the
classifier returns a boolean on it. -/
theorem isLocalResource_total_on_resolvable_witness :
    parseURL "https://codica.la/cursos" = some ⟨"https", "codica.la", "/cursos", false⟩ ∧
    (resolveRef ⟨"https", "codica.la", "/cursos", false⟩ "/assets/application.css").isSome ∧
    (isLocalResource "https://codica.la/cursos" "/assets/application.css").isSome :=
  ⟨by decide, by decide,
   isLocalResource_total_on_resolvable "https://codica.la/cursos" "/assets/application.css"
     ⟨"https", "codica.la", "/cursos", false⟩ (by decide) (Or.inr (by decide))⟩

end PageLoader
